import Mathlib

/-!
Verification of the `makeHardener` transitive immutability enforcer
(`src/dist/make-hardener.esm.js`).

The JavaScript heap is modelled shallowly: an object is a record of own
property descriptors (an ordered association list, mirroring own-key
enumeration order), a prototype link, an extensibility flag, a `typeof`
category, and — for function objects — a closure datum describing its
behaviour.  Object identity is a heap index.  Realm intrinsics
(`Function.prototype` and the like) are not part of the model, so the
function objects created by `freezeWithOverride` carry a null prototype
link.  Host object stringification (used only to format diagnostic
messages) is modelled by a per-object flag saying whether `toString`
throws, mirroring the `${(async _=>_).__proto__}` failure the source
guards against.

Stateful code is modelled by explicit state passing: every stage of a
`harden` call takes and returns an `HState`, and a thrown exception is an
`Option JsError` delivered next to the state reached at the throw site
(mutations before a throw persist, as in JavaScript).  The unbounded
`Set.forEach` fixpoint of `dequeue` is modelled with fuel; the fuel the
model hands it is proved sufficient (the termination claim), so running
out of fuel is not a reachable behaviour of well-formed inputs.
-/

set_option maxHeartbeats 1000000

namespace MH

/- Heap indices (plain naturals) play the role of JavaScript object
identity throughout. -/

/-- The `typeof` category of a composite value.  `exotic` stands for a
hypothetical composite whose `typeof` is neither `"object"` nor
`"function"`; the source treats that case as a defensive error. -/
inductive TypeKind where
  | obj
  | func
  | exotic
  deriving DecidableEq, Repr

/-- A JavaScript value: `undefined`, some primitive, or an object
reference.  Primitives other than `undefined` are collapsed to a number
since the hardener never inspects them. -/
inductive Value where
  | undef : Value
  | prim : Nat → Value
  | ref : Nat → Value
  deriving DecidableEq, Repr

/-- A property descriptor, the sum of data and accessor form. -/
inductive Desc where
  | data (value : Value) (writable enumerable configurable : Bool)
  | accessor (get : Option Value) (set : Option Value) (enumerable configurable : Bool)
  deriving DecidableEq, Repr

/-- Behaviour of a function object, for the functions the hardener itself
creates.  `userFun` is an arbitrary host function whose behaviour the
model does not interpret. -/
inductive Closure where
  | hardenGetter (captured : Value)
  | hardenSetter (home : Nat) (name : String)
  | userFun (tag : Nat)
  deriving DecidableEq, Repr

/-- A heap object. `strFail` records whether coercing the object to a
string throws (the source guards one interpolation site against this). -/
structure Obj where
  kind : TypeKind
  proto : Option Nat
  props : List (String × Desc)
  extensible : Bool
  closure : Option Closure
  strFail : Bool
  deriving DecidableEq, Repr

/-- The object a dangling reference reads as; only reachable on
ill-formed inputs, which the well-formedness predicate excludes. -/
def dummyObj : Obj :=
  { kind := TypeKind.obj, proto := none, props := [], extensible := true,
    closure := none, strFail := false }

instance : Inhabited Obj := ⟨dummyObj⟩

/-- The heap: objects addressed by their position. -/
structure Heap where
  objs : List Obj
  deriving DecidableEq, Repr

def Heap.getO (h : Heap) (oid : Nat) : Obj :=
  h.objs.getD oid dummyObj

def Heap.alloc (h : Heap) (o : Obj) : Heap × Nat :=
  (⟨h.objs ++ [o]⟩, h.objs.length)

def Heap.update (h : Heap) (oid : Nat) (f : Obj → Obj) : Heap :=
  ⟨h.objs.set oid (f (h.getO oid))⟩

/-- Replace the descriptor stored under a key, keeping its position, or
append the key if absent — the key-order behaviour of
`Object.defineProperty`. -/
def setProp : List (String × Desc) → String → Desc → List (String × Desc)
  | [], n, d => [(n, d)]
  | (m, e) :: rest, n, d =>
    if m = n then (n, d) :: rest else (m, e) :: setProp rest n d

/-- The property-table change `Object.defineProperty` makes. -/
def withProp (n : String) (d : Desc) (o : Obj) : Obj :=
  { o with props := setProp o.props n d }

def Heap.defineOwn (h : Heap) (oid : Nat) (n : String) (d : Desc) : Heap :=
  h.update oid (withProp n d)

/-- The attribute clamp of `Object.freeze`. -/
def freezeDesc : Desc → Desc
  | Desc.data v _ e _ => Desc.data v false e false
  | Desc.accessor g s e _ => Desc.accessor g s e false

/-- The object-level effect of `Object.freeze`: prevent extensions and
clamp every descriptor's attributes. -/
def freezeFields (o : Obj) : Obj :=
  { o with extensible := false,
           props := o.props.map (fun nd => (nd.1, freezeDesc nd.2)) }

def Heap.freezeObj (h : Heap) (oid : Nat) : Heap :=
  h.update oid freezeFields

/-- Membership-checked insertion: the behaviour of `Set.add` /
`WeakSet.add`. -/
def setAdd (l : List Nat) (x : Nat) : List Nat :=
  if l.contains x then l else l ++ [x]

/-- Host stringification of an object, used only inside diagnostic
messages; it renders the identity, which is exactly what "naming" an
object in a message means in the model. -/
def jsToStr (oid : Nat) : String :=
  "obj#" ++ toString oid

def descFrozen : Desc → Bool
  | Desc.data _ w _ c => !w && !c
  | Desc.accessor _ _ _ c => !c

/-- A structurally frozen (hardened) object: inextensible, with every own
property non-configurable and every data property non-writable. -/
def isHardenedB (h : Heap) (oid : Nat) : Bool :=
  let o := h.getO oid
  !o.extensible && o.props.all (fun nd => descFrozen nd.2)

/-- Errors the modelled code can throw.  The source throws `TypeError`s
distinguished only by message; the constructors record the throw site
(the spec's error taxonomy) and the message where a claim mentions it.
`hostStrFail` is the exception escaping from a throwing `toString` while
a template literal is evaluated, and `outOfFuel` is the model's marker for
a `forEach` fixpoint that exceeded its fuel (proved unreachable). -/
inductive JsError where
  | configError (msg : String)
  | unexpectedTypeof (msg : String)
  | unreachableProto (msg : String)
  | readOnlyViolation (msg : String)
  | writeRejected (msg : String)
  | hostStrFail
  | outOfFuel
  deriving DecidableEq, Repr

/-- Observable events of one `harden` call, for the ordering claims:
the prepare hook ran on a node, the node finished being hardened
(rewritten and frozen), and the node's outbound links (prototype and own
descriptors) were read, recording whether the node was structurally
frozen at that moment. -/
inductive Event where
  | prepared (oid : Nat)
  | hardenedNode (oid : Nat)
  | linksRead (oid : Nat) (frozen : Bool)
  deriving DecidableEq, Repr

/-- Per-invocation state of a `harden` call, together with the ambient
heap and the instance-lifetime fringe set. -/
structure HState where
  heap : Heap
  fringe : List Nat
  toFreeze : List Nat
  protos : List (Nat × String)
  paths : List (Nat × Option String)
  trace : List Event
  deriving DecidableEq, Repr

/-- Instance configuration: the optional `naivePrepareObject` hook,
modelled as an arbitrary heap transformation applied to the node about to
be hardened, together with the heap index of the realm's
`Function.prototype` intrinsic, which every function the hardener creates
inherits from. -/
structure Config where
  prepareHook : Option (Heap → Nat → Heap)
  funcProto : Nat

def hooklessCfg (fp : Nat) : Config := ⟨none, fp⟩

/-- Sequencing with JavaScript throw semantics: a raised error aborts the
rest of the computation but keeps the state reached so far. -/
def thenDo (r : Option JsError × HState) (f : HState → Option JsError × HState) :
    Option JsError × HState :=
  match r with
  | (some e, st) => (some e, st)
  | (none, st) => f st

/-- WeakMap.set: overwrite the binding for a key. Lookup takes the first
binding, so prepending implements overwrite. -/
def pathsSet (ps : List (Nat × Option String)) (oid : Nat) (p : Option String) :
    List (Nat × Option String) :=
  (oid, p) :: ps

/-- The `paths.get(obj) || 'unknown'` read: an absent binding, an
`undefined` value, or an empty string all fall back to `'unknown'`. -/
def getPath (ps : List (Nat × Option String)) (oid : Nat) : String :=
  match ps.lookup oid with
  | some (some s) => if s = "" then "unknown" else s
  | _ => "unknown"

/-- The walker's `enqueue(val, path)`: ignore primitives, reject a
composite of unexpected `typeof`, ignore a value already in the fringe or
the work set, otherwise add it to the work set and record its discovery
path. -/
def enqueue (st : HState) (v : Value) (path : Option String) :
    Option JsError × HState :=
  match v with
  | Value.undef => (none, st)
  | Value.prim _ => (none, st)
  | Value.ref oid =>
    match (st.heap.getO oid).kind with
    | TypeKind.exotic =>
      (some (JsError.unexpectedTypeof "Unexpected typeof: exotic"), st)
    | _ =>
      if st.fringe.contains oid || st.toFreeze.contains oid then (none, st)
      else
        (none, { st with toFreeze := st.toFreeze ++ [oid],
                         paths := pathsSet st.paths oid path })

/-- A freshly created getter closure, before its `value` property is
attached and before it is frozen.  Like every function created by method
shorthand it inherits from the realm's `Function.prototype` intrinsic,
whose heap index is `fp`. -/
def rawGetter (fp : Nat) (v : Value) : Obj :=
  { kind := TypeKind.func, proto := some fp, props := [], extensible := true,
    closure := some (Closure.hardenGetter v), strFail := false }

/-- A freshly created override setter closure, before it is frozen; its
prototype is the realm's `Function.prototype` intrinsic `fp`. -/
def rawSetter (fp : Nat) (home : Nat) (name : String) : Obj :=
  { kind := TypeKind.func, proto := some fp, props := [], extensible := true,
    closure := some (Closure.hardenSetter home name), strFail := false }

/-- Rewrite one configurable data property of `oid` into the override
accessor pair: allocate the getter (at index `h.objs.length`) and the
setter (at the next index), hang the captured value off the getter as its
own `value` property, freeze both functions, add both to the work set,
and redefine the property as the non-configurable accessor pair. -/
def rewriteDataProp (fp : Nat) (h : Heap) (tf : List Nat) (oid : Nat)
    (name : String) (v : Value) (enum : Bool) : Heap × List Nat :=
  ((((((h.alloc (rawGetter fp v)).1.alloc (rawSetter fp oid name)).1.defineOwn
        h.objs.length "value" (Desc.data v true true true)).freezeObj
        h.objs.length).freezeObj (h.objs.length + 1)).defineOwn oid name
      (Desc.accessor (some (Value.ref h.objs.length))
        (some (Value.ref (h.objs.length + 1))) enum false),
    setAdd (setAdd tf h.objs.length) (h.objs.length + 1))

/-- One step of `freezeWithOverride`'s loop over the descriptor snapshot:
a configurable data property is rewritten into a frozen getter/setter
pair; a configurable accessor property is re-declared non-configurable;
anything non-configurable is left alone. -/
def fwoStep (fp : Nat) (oid : Nat) (acc : Heap × List Nat)
    (entry : String × Desc) : Heap × List Nat :=
  match entry with
  | (name, Desc.data v _ enum true) => rewriteDataProp fp acc.1 acc.2 oid name v enum
  | (_, Desc.data _ _ _ false) => acc
  | (name, Desc.accessor g s enum true) =>
    (acc.1.defineOwn oid name (Desc.accessor g s enum false), acc.2)
  | (_, Desc.accessor _ _ _ false) => acc

/-- `freezeWithOverride(obj)`: iterate the override rewrite over a
snapshot of the own descriptors, then apply the structural freeze. -/
def freezeWithOverride (fp : Nat) (h : Heap) (tf : List Nat) (oid : Nat) :
    Heap × List Nat :=
  let snap := (h.getO oid).props
  let r := snap.foldl (fwoStep fp oid) (h, tf)
  (r.1.freezeObj oid, r.2)

/-- Enqueue the outbound links of one descriptor: the stored value of a
data property, or the getter and setter of an accessor property. -/
def enqueueDesc (path : String) (name : String) (d : Desc) (st : HState) :
    Option JsError × HState :=
  let pathname := path ++ "." ++ name
  match d with
  | Desc.data v _ _ _ => enqueue st v (some pathname)
  | Desc.accessor g s _ _ =>
    thenDo (enqueue st (g.getD Value.undef) (some (pathname ++ "(get)")))
      (fun st1 => enqueue st1 (s.getD Value.undef) (some (pathname ++ "(set)")))

/-- Record the node's prototype in the prototype registry (first
discovery wins), giving the prototype a diagnostic path; a null prototype
records nothing. -/
def recordProto (st : HState) (oid : Nat) (path : String) : HState :=
  match (st.heap.getO oid).proto with
  | none => st
  | some p =>
    if (st.protos.lookup p).isSome then st
    else { st with protos := st.protos ++ [(p, path)],
                   paths := pathsSet st.paths p (some (path ++ ".__proto__")) }

/-- `freezeAndTraverse(obj)`: run the prepare hook if configured, harden
the node with `freezeWithOverride`, then — only after the node is locked
down — read its prototype and descriptor snapshot and enqueue every
outbound link. -/
def freezeAndTraverse (cfg : Config) (st : HState) (oid : Nat) :
    Option JsError × HState :=
  let st0 :=
    match cfg.prepareHook with
    | none => st
    | some f => { st with heap := f st.heap oid, trace := st.trace ++ [Event.prepared oid] }
  let r := freezeWithOverride cfg.funcProto st0.heap st0.toFreeze oid
  let st1 := { st0 with heap := r.1, toFreeze := r.2,
                        trace := st0.trace ++
                          [Event.hardenedNode oid,
                           Event.linksRead oid (isHardenedB r.1 oid)] }
  let path := getPath st1.paths oid
  let st2 := recordProto st1 oid path
  (st2.heap.getO oid).props.foldl
    (fun acc nd => thenDo acc (fun s => enqueueDesc path nd.1 nd.2 s))
    (none, st2)

/-- The `dequeue` fixpoint: `toFreeze.forEach(freezeAndTraverse)`, where
members inserted during the iteration are themselves visited.  The work
set only ever grows, so visiting it by increasing index is exactly the
JavaScript `Set.forEach` order. -/
def dequeueLoop (cfg : Config) : Nat → Nat → HState → Option JsError × HState
  | 0, _, st => (some JsError.outOfFuel, st)
  | fuel + 1, i, st =>
    if h : i < st.toFreeze.length then
      match freezeAndTraverse cfg st (st.toFreeze.get ⟨i, h⟩) with
      | (some e, st1) => (some e, st1)
      | (none, st1) => dequeueLoop cfg fuel (i + 1) st1
    else (none, st)

/-- Diagnostic message of the prototype-completeness failure: best effort,
degrading to a generic message when stringifying the prototype throws —
never swallowing the violation. -/
def protoFailMsg (h : Heap) (p : Nat) (path : String) : String :=
  if (h.getO p).strFail then
    "a prototype of something is not already in the fringeset (and .toString failed)"
  else
    "prototype " ++ jsToStr p ++ " of " ++ path ++ " is not already in the fringeSet"

/-- `checkPrototypes()`: walk the prototype registry in insertion order
and fail on the first recorded prototype that is in neither the work set
nor the fringe. -/
def checkProtosList (h : Heap) (fringe tf : List Nat) :
    List (Nat × String) → Option JsError
  | [] => none
  | (p, path) :: rest =>
    if tf.contains p || fringe.contains p then checkProtosList h fringe tf rest
    else some (JsError.unreachableProto (protoFailMsg h p path))

/-- `commit()`: bulk-insert every work set member into the fringe. -/
def commit (st : HState) : HState :=
  { st with fringe := st.toFreeze.foldl setAdd st.fringe }

/-- Number of configurable data properties of an object — the properties
whose processing allocates the two override functions. -/
def cdcDesc : Desc → Nat
  | Desc.data _ _ _ true => 1
  | _ => 0

def cdcList (l : List (String × Desc)) : Nat :=
  (l.map (fun nd => cdcDesc nd.2)).sum

def cdcObj (o : Obj) : Nat :=
  cdcList o.props

/-- Size measure of a heap: object count plus twice the configurable data
property count.  One `freezeAndTraverse` never increases it, which bounds
the growth of the work set and hence the fixpoint's length. -/
def measureM (h : Heap) : Nat :=
  h.objs.length + 2 * (h.objs.map cdcObj).sum

/-- Fuel that provably suffices for the fixpoint on well-formed input. -/
def fuelOf (h : Heap) : Nat :=
  measureM h + 1

/-- Result of one `harden` call: the error if it threw, the state it
reached (heap mutations before a throw persist; the fringe is only
touched by `commit`), and the returned value. -/
structure Outcome where
  err : Option JsError
  st : HState
  ret : Value
  deriving DecidableEq, Repr

/-- `harden(root)`: enqueue the root, run the fixpoint, check prototype
completeness, commit, and return the root. -/
def harden (cfg : Config) (heap : Heap) (fringe : List Nat) (root : Value) :
    Outcome :=
  let st0 : HState := ⟨heap, fringe, [], [], [], []⟩
  match enqueue st0 root none with
  | (some e, st) => ⟨some e, st, Value.undef⟩
  | (none, st1) =>
    match dequeueLoop cfg (fuelOf heap) 0 st1 with
    | (some e, st2) => ⟨some e, st2, Value.undef⟩
    | (none, st2) =>
      match checkProtosList st2.heap st2.fringe st2.toFreeze st2.protos with
      | some e => ⟨some e, st2, Value.undef⟩
      | none => ⟨none, commit st2, root⟩

/-- A supplied fringe set, abstracted to the two capabilities the source
checks for and its membership. -/
structure SuppliedSet where
  hasAdd : Bool
  hasHas : Bool
  elems : List Nat
  deriving DecidableEq, Repr

/-- Construction-time options of `makeHardener`. -/
structure MkOptions where
  fringeSet : Option SuppliedSet

/-- Result of constructing a hardener: the initial fringe membership and
whether the caller-supplied set is the live one. -/
structure MkResult where
  fringe : List Nat
  usedSupplied : Bool
  deriving DecidableEq, Repr

/-- `makeHardener(initialFringe, options)` construction-time behaviour:
validate a supplied fringe set's capabilities and populate it from
`initialFringe`, or create a private set from `initialFringe`. -/
def makeHardener (initialFringe : List Nat) (opts : MkOptions) :
    Except JsError MkResult :=
  match opts.fringeSet with
  | some fs =>
    if !fs.hasAdd || !fs.hasHas then
      Except.error (JsError.configError "options.fringeSet must have add() and has() methods")
    else
      Except.ok { fringe := initialFringe.foldl setAdd fs.elems, usedSupplied := true }
  | none => Except.ok { fringe := initialFringe, usedSupplied := false }

/-! ### Outbound links and well-formedness -/

/-- Object references contained in a value. -/
def valueTargets : Value → List Nat
  | Value.ref oid => [oid]
  | _ => []

/-- Object references contained in a descriptor: the stored value of a
data property, the getter and setter of an accessor property. -/
def descTargets : Desc → List Nat
  | Desc.data v _ _ _ => valueTargets v
  | Desc.accessor g s _ _ =>
    (match g with | some v => valueTargets v | none => []) ++
    (match s with | some v => valueTargets v | none => [])

/-- References reachable from an object through its own properties. -/
def propTargets (o : Obj) : List Nat :=
  o.props.flatMap (fun nd => descTargets nd.2)

def protoTargets (o : Obj) : List Nat :=
  match o.proto with
  | some p => [p]
  | none => []

/-- All one-step outbound links of an object: its prototype link, its own
property values and its own accessor functions. -/
def objTargets (o : Obj) : List Nat :=
  protoTargets o ++ propTargets o

/-- Well-formed object relative to a heap size: distinct own keys and all
outbound references in bounds. -/
def objWF (len : Nat) (o : Obj) : Prop :=
  (o.props.map Prod.fst).Nodup ∧ ∀ t ∈ objTargets o, t < len

instance (len : Nat) (o : Obj) : Decidable (objWF len o) := by
  unfold objWF; infer_instance

/-- Well-formed heap: every object is well-formed. -/
def heapWF (h : Heap) : Prop :=
  ∀ o ∈ h.objs, objWF h.objs.length o

instance (h : Heap) : Decidable (heapWF h) := by
  unfold heapWF; infer_instance

/-- A value whose references lie inside the heap. -/
def valueWF (h : Heap) (v : Value) : Prop :=
  ∀ t ∈ valueTargets v, t < h.objs.length

instance (h : Heap) (v : Value) : Decidable (valueWF h v) := by
  unfold valueWF; infer_instance

/-- No object of the heap has the defensive-error `typeof` category. -/
def noExotic (h : Heap) : Prop :=
  ∀ o ∈ h.objs, o.kind ≠ TypeKind.exotic

instance (h : Heap) : Decidable (noExotic h) := by
  unfold noExotic; infer_instance

/-- Every object of the heap has a null prototype link. -/
def allProtoNone (h : Heap) : Prop :=
  ∀ o ∈ h.objs, o.proto = none

instance (h : Heap) : Decidable (allProtoNone h) := by
  unfold allProtoNone; infer_instance

/-- Every prototype link of the heap is either null or the
`Function.prototype` intrinsic `fp`.  Preserved by a `harden` run: the
only objects it creates are the override functions, whose prototype is
`fp`. -/
def protoSub (h : Heap) (fp : Nat) : Prop :=
  ∀ o ∈ h.objs, o.proto = none ∨ o.proto = some fp

instance (h : Heap) (fp : Nat) : Decidable (protoSub h fp) := by
  unfold protoSub; infer_instance

/-- Invariants carried through a `harden` run: heap well-formedness, a
duplicate-free work set, and work set members naming real objects. -/
structure StInv (st : HState) : Prop where
  wf : heapWF st.heap
  nodup : st.toFreeze.Nodup
  bounded : ∀ x ∈ st.toFreeze, x < st.heap.objs.length

/-- The getter function object `freezeWithOverride` creates for a
captured value, as it stands after its own `value` property is attached
and it is frozen. -/
def getterObj (fp : Nat) (v : Value) : Obj :=
  { kind := TypeKind.func, proto := some fp,
    props := [("value", Desc.data v false true false)],
    extensible := false, closure := some (Closure.hardenGetter v), strFail := false }

/-- The setter function object `freezeWithOverride` creates for a home
object and key, frozen. -/
def setterObj (fp : Nat) (home : Nat) (name : String) : Obj :=
  { kind := TypeKind.func, proto := some fp, props := [],
    extensible := false, closure := some (Closure.hardenSetter home name), strFail := false }

/-- The trace block one `freezeAndTraverse` visit of a node contributes:
the hook runs first when configured, the node is then hardened, and only
then are its outbound links read — at which point it is already frozen. -/
def blockOf (hasHook : Bool) (oid : Nat) : List Event :=
  (if hasHook then [Event.prepared oid] else []) ++
    [Event.hardenedNode oid, Event.linksRead oid true]

/-- A prepare hook that keeps the heap a heap: it may mutate and grow it
but neither deletes objects nor introduces dangling references — the only
behaviours a JavaScript callback could exhibit. -/
def hookWF (cfg : Config) : Prop :=
  ∀ f, cfg.prepareHook = some f →
    ∀ h oid, heapWF h → heapWF (f h oid) ∧ h.objs.length ≤ (f h oid).objs.length

/-- A node the fixpoint has finished with: structurally hardened, every
own-property link already in the fringe or the work set, and its
prototype (if any) recorded in the prototype registry. -/
def processedOid (st : HState) (oid : Nat) : Prop :=
  isHardenedB st.heap oid = true ∧
  (∀ t ∈ propTargets (st.heap.getO oid), t ∈ st.fringe ∨ t ∈ st.toFreeze) ∧
  (∀ p, (st.heap.getO oid).proto = some p → ((st.protos.lookup p).isSome : Prop))

/-- One-step edge of the object graph: `b` is an own-property value, an
own accessor function, or the prototype of `a`. -/
def edgeTo (h : Heap) (a b : Nat) : Prop :=
  b ∈ objTargets (h.getO a)

/-- Nodes reachable from `r` along edges that do not leave through a
member of `stop` (the fringe is the sole authority for "stop traversal
here"). -/
inductive reachesAvoiding (h : Heap) (stop : List Nat) (r : Nat) : Nat → Prop where
  | refl : reachesAvoiding h stop r r
  | step {b c : Nat} : reachesAvoiding h stop r b → b ∉ stop → edgeTo h b c →
      reachesAvoiding h stop r c

/-! ### Property access and assignment (`[[Get]]` and `[[Set]]`)

The override claims are about reads and writes against hardened objects,
so the relevant fragment of ordinary JavaScript property access is
modelled: prototype-chain lookup, accessor invocation for the closures
the hardener creates, and `Object.defineProperty` validation.  Behaviour
of arbitrary user functions is not interpreted. -/

/-- Can `Object.defineProperty` install this descriptor?  A configurable
existing property may be redefined; a missing property may be added to an
extensible object. -/
def canDefine (h : Heap) (oid : Nat) (name : String) : Bool :=
  match (h.getO oid).props.lookup name with
  | some (Desc.data _ _ _ c) => c
  | some (Desc.accessor _ _ _ c) => c
  | none => (h.getO oid).extensible

/-- Invoke a setter function object on a receiver: the hardener's
override setter rejects a write whose receiver is its home object (after
evaluating the diagnostic template, whose `${obj}` interpolation can
itself throw) and shadows on any other receiver. -/
def invokeSetter (h : Heap) (sid : Nat) (receiver : Nat) (v : Value) :
    Except JsError Heap :=
  match (h.getO sid).closure with
  | some (Closure.hardenSetter home name) =>
    if receiver = home then
      if (h.getO home).strFail then Except.error JsError.hostStrFail
      else
        Except.error (JsError.readOnlyViolation
          ("Cannot assign to read only property '" ++ name ++ "' of object '" ++
            jsToStr home ++ "'"))
    else
      if canDefine h receiver name then
        Except.ok (h.defineOwn receiver name (Desc.data v true true true))
      else Except.error (JsError.writeRejected "defineProperty failed")
  | _ => Except.error (JsError.writeRejected "unmodelled function call")

/-- Write the value through to the receiver once the chain walk found a
writable data property or fell off the chain (`OrdinarySet`'s
create-or-update on the receiver). -/
def setOnReceiver (h : Heap) (receiver : Nat) (name : String) (v : Value) :
    Except JsError Heap :=
  match (h.getO receiver).props.lookup name with
  | some (Desc.data _ w enum c) =>
    if w then Except.ok (h.defineOwn receiver name (Desc.data v w enum c))
    else Except.error (JsError.writeRejected "read-only data property")
  | some (Desc.accessor _ _ _ _) =>
    Except.error (JsError.writeRejected "accessor on receiver")
  | none =>
    if (h.getO receiver).extensible then
      Except.ok (h.defineOwn receiver name (Desc.data v true true true))
    else Except.error (JsError.writeRejected "receiver not extensible")

/-- The prototype-chain walk of a strict-mode assignment. -/
def jsSetLoop (h : Heap) : Nat → Nat → Nat → String → Value → Except JsError Heap
  | 0, _, _, _, _ => Except.error JsError.outOfFuel
  | fuel + 1, cur, receiver, name, v =>
    match (h.getO cur).props.lookup name with
    | some (Desc.data _ w _ _) =>
      if w then setOnReceiver h receiver name v
      else Except.error (JsError.writeRejected "read-only data property")
    | some (Desc.accessor _ setter _ _) =>
      match setter with
      | some (Value.ref sid) => invokeSetter h sid receiver v
      | _ => Except.error (JsError.writeRejected "no setter")
    | none =>
      match (h.getO cur).proto with
      | some p => jsSetLoop h fuel p receiver name v
      | none => setOnReceiver h receiver name v

/-- Strict-mode assignment `oid.name = v`. -/
def jsSet (h : Heap) (oid : Nat) (name : String) (v : Value) :
    Except JsError Heap :=
  jsSetLoop h (h.objs.length + 1) oid oid name v

/-- The prototype-chain walk of a property read; `none` means the read's
behaviour is outside the model (a user-function getter). -/
def jsGetLoop (h : Heap) : Nat → Nat → String → Option Value
  | 0, _, _ => none
  | fuel + 1, cur, name =>
    match (h.getO cur).props.lookup name with
    | some (Desc.data v _ _ _) => some v
    | some (Desc.accessor getter _ _ _) =>
      match getter with
      | none => some Value.undef
      | some (Value.ref gid) =>
        match (h.getO gid).closure with
        | some (Closure.hardenGetter v) => some v
        | _ => none
      | some _ => none
    | none =>
      match (h.getO cur).proto with
      | some p => jsGetLoop h fuel p name
      | none => some Value.undef

/-- Property read `oid.name`. -/
def jsGet (h : Heap) (oid : Nat) (name : String) : Option Value :=
  jsGetLoop h (h.objs.length + 1) oid name

/-- Facts established about the `freezeWithOverride` loop (the fold of
`fwoStep` over the descriptor snapshot `l` of node `oid`, starting from
heap `h` and work set `tf`, with result `r`). -/
structure FwoFacts (fp : Nat) (h : Heap) (tf : List Nat) (oid : Nat)
    (l : List (String × Desc)) (r : Heap × List Nat) : Prop where
  lenEq : r.1.objs.length = h.objs.length + 2 * cdcList l
  stable : ∀ j, j ≠ oid → j < h.objs.length → r.1.getO j = h.getO j
  kindEq : (r.1.getO oid).kind = (h.getO oid).kind
  protoEq : (r.1.getO oid).proto = (h.getO oid).proto
  strFailEq : (r.1.getO oid).strFail = (h.getO oid).strFail
  keysEq : (r.1.getO oid).props.map Prod.fst = (h.getO oid).props.map Prod.fst
  tfExt : ∃ fresh, r.2 = tf ++ fresh ∧ fresh.Nodup ∧
    ∀ x ∈ fresh, h.objs.length ≤ x ∧ x < r.1.objs.length
  freshShape : ∀ x, h.objs.length ≤ x → x < r.1.objs.length →
    isHardenedB r.1 x = true ∧ (r.1.getO x).proto = some fp ∧
    (r.1.getO x).kind = TypeKind.func
  measEq : measureM r.1 = measureM h
  wf : heapWF r.1
  rewritten : ∀ name v w enum, (name, Desc.data v w enum true) ∈ l → ∃ gid sid,
    h.objs.length ≤ gid ∧ h.objs.length ≤ sid ∧
    (r.1.getO oid).props.lookup name =
      some (Desc.accessor (some (Value.ref gid)) (some (Value.ref sid)) enum false) ∧
    r.1.getO gid = getterObj fp v ∧ r.1.getO sid = setterObj fp oid name ∧
    gid ∈ r.2 ∧ sid ∈ r.2
  lookupPres : ∀ m, m ∉ l.map Prod.fst →
    (r.1.getO oid).props.lookup m = (h.getO oid).props.lookup m

/-- Facts established about a whole `freezeWithOverride(obj)` call. -/
structure FreezeFacts (fp : Nat) (h : Heap) (tf : List Nat) (oid : Nat)
    (r : Heap × List Nat) : Prop where
  lenEq : r.1.objs.length = h.objs.length + 2 * cdcObj (h.getO oid)
  stable : ∀ j, j ≠ oid → j < h.objs.length → r.1.getO j = h.getO j
  hardened : isHardenedB r.1 oid = true
  kindEq : (r.1.getO oid).kind = (h.getO oid).kind
  protoEq : (r.1.getO oid).proto = (h.getO oid).proto
  strFailEq : (r.1.getO oid).strFail = (h.getO oid).strFail
  tfExt : ∃ fresh, r.2 = tf ++ fresh ∧ fresh.Nodup ∧
    ∀ x ∈ fresh, h.objs.length ≤ x ∧ x < r.1.objs.length
  freshShape : ∀ x, h.objs.length ≤ x → x < r.1.objs.length →
    isHardenedB r.1 x = true ∧ (r.1.getO x).proto = some fp ∧
    (r.1.getO x).kind = TypeKind.func
  measLe : measureM r.1 ≤ measureM h
  wf : heapWF r.1
  rewritten : ∀ name v w enum,
    (h.getO oid).props.lookup name = some (Desc.data v w enum true) → ∃ gid sid,
    h.objs.length ≤ gid ∧ h.objs.length ≤ sid ∧
    (r.1.getO oid).props.lookup name =
      some (Desc.accessor (some (Value.ref gid)) (some (Value.ref sid)) enum false) ∧
    r.1.getO gid = getterObj fp v ∧ r.1.getO sid = setterObj fp oid name ∧
    gid ∈ r.2 ∧ sid ∈ r.2

/-- Facts established about folding `enqueueDesc` over a descriptor list:
only the work set and paths change, new work set entries come from the
descriptors' outbound links and were in neither the fringe nor the work
set, on success every link is covered, and the only possible error is the
defensive `typeof` rejection. -/
structure EnqFacts (st : HState) (props : List (String × Desc))
    (res : Option JsError × HState) : Prop where
  heapEq : res.2.heap = st.heap
  fringeEq : res.2.fringe = st.fringe
  protosEq : res.2.protos = st.protos
  traceEq : res.2.trace = st.trace
  tfExt : ∃ l, res.2.toFreeze = st.toFreeze ++ l ∧
    ∀ x ∈ l, x ∉ st.fringe ∧ ∃ nd ∈ props, x ∈ descTargets nd.2
  nodup : st.toFreeze.Nodup → res.2.toFreeze.Nodup
  covered : res.1 = none → ∀ nd ∈ props, ∀ t ∈ descTargets nd.2,
    t ∈ st.fringe ∨ t ∈ res.2.toFreeze
  errTypeof : res.1 = none ∨ ∃ m, res.1 = some (JsError.unexpectedTypeof m)
  noErr : noExotic st.heap → res.1 = none

/-- Facts established about one hookless `freezeAndTraverse` visit of a
node: the fringe is untouched, other objects are untouched, the node ends
structurally hardened with kind and prototype preserved, the work set and
prototype registry only grow (the registry by at most the node's own
prototype), the trace grows by exactly the node's block, the run
invariants and measure bound are maintained, the only possible error is
the defensive `typeof` rejection, and on success every outbound link of
the node is accounted for. -/
structure TravFacts (fp : Nat) (st : HState) (oid : Nat) (res : Option JsError × HState) : Prop where
  fringeEq : res.2.fringe = st.fringe
  lenGe : st.heap.objs.length ≤ res.2.heap.objs.length
  stable : ∀ j, j ≠ oid → j < st.heap.objs.length → res.2.heap.getO j = st.heap.getO j
  hardened : isHardenedB res.2.heap oid = true
  kindEq : (res.2.heap.getO oid).kind = (st.heap.getO oid).kind
  protoEqO : (res.2.heap.getO oid).proto = (st.heap.getO oid).proto
  tfExt : ∃ l, res.2.toFreeze = st.toFreeze ++ l
  protosExt : ∃ l, res.2.protos = st.protos ++ l ∧
    (l = [] ∨ ∃ p pa, (st.heap.getO oid).proto = some p ∧ l = [(p, pa)])
  traceEq : res.2.trace = st.trace ++ blockOf false oid
  inv : StInv res.2
  measLe : measureM res.2.heap ≤ measureM st.heap
  errTypeof : res.1 = none ∨ ∃ m, res.1 = some (JsError.unexpectedTypeof m)
  noExoticPres : noExotic st.heap → noExotic res.2.heap ∧ res.1 = none
  exoticMono : ∀ j, (res.2.heap.getO j).kind = TypeKind.exotic →
    (st.heap.getO j).kind = TypeKind.exotic
  protoSubPres : protoSub st.heap fp → protoSub res.2.heap fp
  processed : res.1 = none →
    (∀ t, t ∈ propTargets (res.2.heap.getO oid) → t ∈ st.fringe ∨ t ∈ res.2.toFreeze) ∧
    (∀ p, (res.2.heap.getO oid).proto = some p →
      ((res.2.protos.lookup p).isSome : Prop))

/-- Facts established about a hookless `dequeue` fixpoint run starting at
visit index `i`: invariants and the fringe are maintained, the work set
and prototype registry only grow, the only possible error is the
defensive `typeof` rejection (in particular the fuel never runs out), on
success every work set member has been processed and the trace grew by
exactly one block per visited node, and an exotic-free or all-null-
prototype heap stays that way. -/
structure LoopFacts (fp : Nat) (st : HState) (i : Nat) (res : Option JsError × HState) : Prop where
  inv : StInv res.2
  fringeEq : res.2.fringe = st.fringe
  tfExt : ∃ l, res.2.toFreeze = st.toFreeze ++ l
  protosExt : ∃ l, res.2.protos = st.protos ++ l
  lenGe : st.heap.objs.length ≤ res.2.heap.objs.length
  errKind : res.1 = none ∨ ∃ m, res.1 = some (JsError.unexpectedTypeof m)
  procAll : res.1 = none → ∀ oid ∈ res.2.toFreeze, processedOid res.2 oid
  noExoticPres : noExotic st.heap → noExotic res.2.heap ∧ res.1 = none
  exoticMono : ∀ j, (res.2.heap.getO j).kind = TypeKind.exotic →
    (st.heap.getO j).kind = TypeKind.exotic
  protoSubPres : protoSub st.heap fp → protoSub res.2.heap fp ∧
    ∀ pp ∈ res.2.protos, pp ∈ st.protos ∨ pp.1 = fp
  traceFlat : res.1 = none →
    res.2.trace = st.trace ++ (res.2.toFreeze.drop i).flatMap (blockOf false)
  measLe : measureM res.2.heap ≤ measureM st.heap

/-- The facts needed about a `dequeue` run when a prepare hook is
configured: invariants, the untouched fringe, the growing work set, and
the per-node trace blocks (hook event first). -/
structure LoopFactsH (st : HState) (i : Nat) (res : Option JsError × HState) : Prop where
  inv : StInv res.2
  fringeEq : res.2.fringe = st.fringe
  tfExt : ∃ l, res.2.toFreeze = st.toFreeze ++ l
  traceFlat : res.1 = none →
    res.2.trace = st.trace ++ (res.2.toFreeze.drop i).flatMap (blockOf true)

/-- Facts established about one hookless `harden` call on heap `h0`,
fringe `fr0` and root `root`. -/
structure HardenFacts (fp : Nat) (h0 : Heap) (fr0 : List Nat) (root : Value) (out : Outcome) : Prop where
  errKind : out.err = none ∨ (∃ m, out.err = some (JsError.unexpectedTypeof m)) ∨
    (∃ m, out.err = some (JsError.unreachableProto m))
  errFringe : out.err ≠ none → out.st.fringe = fr0
  inv : StInv out.st
  okRet : out.err = none → out.ret = root
  okFringe : out.err = none →
    ∀ x, x ∈ out.st.fringe ↔ x ∈ fr0 ∨ x ∈ out.st.toFreeze
  okProc : out.err = none → ∀ oid ∈ out.st.toFreeze, processedOid out.st oid
  okRoot : out.err = none → ∀ r, root = Value.ref r → r ∈ fr0 ∨ r ∈ out.st.toFreeze
  okProtos : out.err = none →
    ∀ pp ∈ out.st.protos, pp.1 ∈ out.st.toFreeze ∨ pp.1 ∈ fr0
  okTrace : out.err = none → out.st.trace = out.st.toFreeze.flatMap (blockOf false)
  okRootKind : out.err = none → ∀ r, root = Value.ref r →
    (h0.getO r).kind ≠ TypeKind.exotic
  exoticMono : ∀ j, (out.st.heap.getO j).kind = TypeKind.exotic →
    (h0.getO j).kind = TypeKind.exotic
  noExoticOk : noExotic h0 →
    out.err = none ∨ ∃ m, out.err = some (JsError.unreachableProto m)
  protoFpOk : noExotic h0 → protoSub h0 fp → fp ∈ fr0 →
    out.err = none ∧ ∀ pp ∈ out.st.protos, pp.1 = fp

/-! ### Concrete instances -/

/-- A single self-referential node (`n.self = n`) next to the realm's
`Function.prototype` intrinsic (index 1), the cycle-safety instance. -/
def selfHeap : Heap := ⟨[
  { kind := TypeKind.obj, proto := none,
    props := [("self", Desc.data (Value.ref 0) true true true)],
    extensible := true, closure := none, strFail := false },
  { kind := TypeKind.func, proto := none, props := [],
    extensible := true, closure := none, strFail := false }]⟩

/-- A root whose one configurable data property holds a node whose
prototype is a third, otherwise unreachable object, next to the
`Function.prototype` intrinsic (index 3): `harden` fails on it at the
prototype check. -/
def mixHeap : Heap := ⟨[
  { kind := TypeKind.obj, proto := none,
    props := [("x", Desc.data (Value.ref 1) true true true)],
    extensible := true, closure := none, strFail := false },
  { kind := TypeKind.obj, proto := some 2, props := [],
    extensible := true, closure := none, strFail := false },
  { kind := TypeKind.obj, proto := none, props := [],
    extensible := true, closure := none, strFail := false },
  { kind := TypeKind.func, proto := none, props := [],
    extensible := true, closure := none, strFail := false }]⟩

/-- A parent with one configurable data property and an extensible child
inheriting from it, next to the `Function.prototype` intrinsic (index 2),
for the override-write instance. -/
def pairHeap : Heap := ⟨[
  { kind := TypeKind.obj, proto := none,
    props := [("p", Desc.data (Value.prim 7) true true true)],
    extensible := true, closure := none, strFail := false },
  { kind := TypeKind.obj, proto := some 0, props := [],
    extensible := true, closure := none, strFail := false },
  { kind := TypeKind.func, proto := none, props := [],
    extensible := true, closure := none, strFail := false }]⟩

/-- The identity prepare hook, for the hook-ordering instance. -/
def idHookCfg : Config := ⟨some (fun h _ => h), 1⟩

/-! ### List helper lemmas -/

theorem mem_setAdd {l : List Nat} {x y : Nat} :
    y ∈ setAdd l x ↔ y ∈ l ∨ y = x := by
  unfold setAdd
  by_cases hx : x ∈ l
  · rw [if_pos (List.elem_iff.mpr hx)]
    exact ⟨Or.inl, fun h => h.elim id (fun e => e ▸ hx)⟩
  · rw [if_neg (fun hc => hx (List.elem_iff.mp hc))]
    simp

theorem setAdd_nodup {l : List Nat} {x : Nat} (h : l.Nodup) :
    (setAdd l x).Nodup := by
  unfold setAdd
  by_cases hx : x ∈ l
  · rw [if_pos (List.elem_iff.mpr hx)]; exact h
  · rw [if_neg (fun hc => hx (List.elem_iff.mp hc))]
    simpa [List.nodup_append] using ⟨h, hx⟩

theorem mem_foldl_setAdd (l : List Nat) (init : List Nat) (x : Nat) :
    x ∈ l.foldl setAdd init ↔ x ∈ init ∨ x ∈ l := by
  induction l generalizing init with
  | nil => simp
  | cons a t ih =>
    simp only [List.foldl_cons, ih, mem_setAdd, List.mem_cons]
    tauto

theorem lookup_setProp_self (l : List (String × Desc)) (n : String) (d : Desc) :
    (setProp l n d).lookup n = some d := by
  induction l with
  | nil => simp [setProp, List.lookup]
  | cons nd t ih =>
    obtain ⟨m, e⟩ := nd
    by_cases hmn : m = n
    · subst hmn; simp [setProp, List.lookup]
    · have hb : (n == m) = false := beq_false_of_ne (Ne.symm hmn)
      simp [setProp, hmn, List.lookup, hb, ih]

theorem lookup_setProp_ne (l : List (String × Desc)) (n : String) (d : Desc)
    (m : String) (h : m ≠ n) :
    (setProp l n d).lookup m = l.lookup m := by
  induction l with
  | nil => simp [setProp, List.lookup, beq_false_of_ne h]
  | cons nd t ih =>
    obtain ⟨k, e⟩ := nd
    by_cases hkn : k = n
    · subst hkn
      simp [setProp, List.lookup, beq_false_of_ne h]
    · by_cases hmk : m = k
      · subst hmk; simp [setProp, hkn, List.lookup]
      · have hb : (m == k) = false := beq_false_of_ne hmk
        simp [setProp, hkn, List.lookup, hb, ih]

theorem mem_setProp {l : List (String × Desc)} {n : String} {d : Desc} :
    ∀ nd ∈ setProp l n d, nd ∈ l ∨ nd = (n, d) := by
  induction l with
  | nil => simp [setProp]
  | cons hd t ih =>
    obtain ⟨m, e⟩ := hd
    intro nd hnd
    by_cases hmn : m = n
    · subst hmn
      have h' : nd = (m, d) ∨ nd ∈ t := by simpa [setProp] using hnd
      rcases h' with h | h
      · exact Or.inr h
      · exact Or.inl (List.mem_cons_of_mem _ h)
    · have h' : nd = (m, e) ∨ nd ∈ setProp t n d := by simpa [setProp, hmn] using hnd
      rcases h' with h | h
      · exact Or.inl (h ▸ List.mem_cons_self _ _)
      · rcases ih nd h with h1 | h1
        · exact Or.inl (List.mem_cons_of_mem _ h1)
        · exact Or.inr h1

theorem mapFst_setProp_mem {l : List (String × Desc)} {n : String} (d : Desc)
    (h : n ∈ l.map Prod.fst) :
    (setProp l n d).map Prod.fst = l.map Prod.fst := by
  induction l with
  | nil => simp at h
  | cons hd t ih =>
    obtain ⟨m, e⟩ := hd
    by_cases hmn : m = n
    · subst hmn; simp [setProp]
    · have hn : n ∈ t.map Prod.fst := by
        have h' : n = m ∨ n ∈ t.map Prod.fst := by
          simpa using h
        rcases h' with h1 | h1
        · exact absurd h1.symm hmn
        · exact h1
      simp [setProp, hmn, ih hn]

theorem mapFst_setProp_notMem {l : List (String × Desc)} {n : String} (d : Desc)
    (h : n ∉ l.map Prod.fst) :
    (setProp l n d).map Prod.fst = l.map Prod.fst ++ [n] := by
  induction l with
  | nil => simp [setProp]
  | cons hd t ih =>
    obtain ⟨m, e⟩ := hd
    have hmn : m ≠ n := by
      intro hc; exact h (by simp [hc])
    have hn : n ∉ t.map Prod.fst := fun hc => h (by simp [hc])
    simp [setProp, hmn, ih hn]

theorem lookup_of_mem_nodup {l : List (String × Desc)} {n : String} {d : Desc}
    (hn : (l.map Prod.fst).Nodup) (hmem : (n, d) ∈ l) :
    l.lookup n = some d := by
  induction l with
  | nil => simp at hmem
  | cons hd t ih =>
    obtain ⟨m, e⟩ := hd
    have hcons : m ∉ t.map Prod.fst ∧ (t.map Prod.fst).Nodup :=
      List.nodup_cons.mp (by simpa using hn)
    rcases List.mem_cons.mp hmem with h1 | h1
    · cases h1
      simp [List.lookup]
    · have hnm : n ≠ m := by
        rintro rfl
        exact hcons.1 (List.mem_map.mpr ⟨(n, d), h1, rfl⟩)
      have hb : (n == m) = false := beq_false_of_ne hnm
      simpa [List.lookup, hb] using ih hcons.2 h1

theorem cdc_setProp {l : List (String × Desc)} {n : String} {d0 : Desc}
    (d : Desc) (hl : l.lookup n = some d0) :
    cdcList (setProp l n d) + cdcDesc d0 = cdcList l + cdcDesc d := by
  induction l with
  | nil => simp [List.lookup] at hl
  | cons hd t ih =>
    obtain ⟨m, e⟩ := hd
    by_cases hmn : m = n
    · subst hmn
      have : e = d0 := by simpa [List.lookup] using hl
      subst this
      simp [setProp, cdcList]
      omega
    · have hb : (n == m) = false := beq_false_of_ne (Ne.symm hmn)
      have hl2 : t.lookup n = some d0 := by simpa [List.lookup, hb] using hl
      have := ih hl2
      simp only [setProp, hmn, if_false, cdcList, List.map_cons, List.sum_cons] at *
      omega

theorem cdcDesc_freezeDesc (d : Desc) : cdcDesc (freezeDesc d) = 0 := by
  cases d <;> rfl

theorem descFrozen_freezeDesc (d : Desc) : descFrozen (freezeDesc d) = true := by
  cases d <;> rfl

theorem cdcList_map_freeze (l : List (String × Desc)) :
    cdcList (l.map (fun nd => (nd.1, freezeDesc nd.2))) = 0 := by
  induction l with
  | nil => rfl
  | cons hd t ih => simp [cdcList, cdcDesc_freezeDesc] at *; simpa [cdcList] using ih

theorem sum_map_set {α : Type} (f : α → Nat) (dflt : α) (l : List α) (i : Nat) (a : α)
    (h : i < l.length) :
    ((l.set i a).map f).sum + f (l.getD i dflt) = (l.map f).sum + f a := by
  induction l generalizing i with
  | nil => simp at h
  | cons hd t ih =>
    cases i with
    | zero =>
      simp only [List.set, List.map_cons, List.sum_cons, List.getD_cons_zero]
      omega
    | succ j =>
      have hj : j < t.length := by simpa using h
      have := ih j hj
      simp only [List.set, List.map_cons, List.sum_cons, List.getD_cons_succ]
      omega

/-! ### Heap operation lemmas -/

theorem Heap.length_update (h : Heap) (oid : Nat) (f : Obj → Obj) :
    (h.update oid f).objs.length = h.objs.length := by
  simp [Heap.update]

theorem Heap.getO_update_self (h : Heap) (oid : Nat) (f : Obj → Obj)
    (hlt : oid < h.objs.length) :
    (h.update oid f).getO oid = f (h.getO oid) := by
  simp only [Heap.update, Heap.getO, List.getD, List.get?_eq_getElem?]
  rw [List.getElem?_set_self (by simpa using hlt)]
  rfl

theorem Heap.getO_update_ne (h : Heap) (oid : Nat) (f : Obj → Obj)
    (j : Nat) (hne : j ≠ oid) :
    (h.update oid f).getO j = h.getO j := by
  simp only [Heap.update, Heap.getO, List.getD, List.get?_eq_getElem?]
  rw [List.getElem?_set_ne (Ne.symm hne)]

theorem Heap.update_oob (h : Heap) (oid : Nat) (f : Obj → Obj)
    (hge : h.objs.length ≤ oid) :
    h.update oid f = h := by
  simp only [Heap.update]
  cases h
  simp [List.set_eq_of_length_le hge]

theorem Heap.length_alloc (h : Heap) (o : Obj) :
    (h.alloc o).1.objs.length = h.objs.length + 1 := by
  simp [Heap.alloc]

theorem Heap.alloc_id (h : Heap) (o : Obj) :
    (h.alloc o).2 = h.objs.length := rfl

theorem Heap.getO_alloc_self (h : Heap) (o : Obj) :
    (h.alloc o).1.getO h.objs.length = o := by
  simp [Heap.alloc, Heap.getO, List.getD]

theorem Heap.getO_alloc_ne (h : Heap) (o : Obj) (j : Nat)
    (hne : j ≠ h.objs.length) :
    (h.alloc o).1.getO j = h.getO j := by
  rcases Nat.lt_or_ge j h.objs.length with hlt | hge
  · simp [Heap.alloc, Heap.getO, List.getD, List.get?_eq_getElem?,
      List.getElem?_append, hlt]
  · have hgt : h.objs.length < j := lt_of_le_of_ne hge (Ne.symm hne)
    have h1 : (h.objs ++ [o])[j]? = none := by
      rw [List.getElem?_eq_none]
      simpa using hgt
    have h2 : h.objs[j]? = none := by
      rw [List.getElem?_eq_none]
      omega
    simp [Heap.alloc, Heap.getO, List.getD, List.get?_eq_getElem?, h1, h2]

theorem Heap.getO_mem (h : Heap) (oid : Nat) (hlt : oid < h.objs.length) :
    h.getO oid ∈ h.objs := by
  simp only [Heap.getO, List.getD, List.get?_eq_getElem?]
  rw [List.getElem?_eq_getElem (by simpa using hlt)]
  simp only [Option.getD_some]
  exact List.getElem_mem _

theorem measureM_update (h : Heap) (oid : Nat) (f : Obj → Obj)
    (hlt : oid < h.objs.length) :
    measureM (h.update oid f) + 2 * cdcObj (h.getO oid) =
      measureM h + 2 * cdcObj (f (h.getO oid)) := by
  have hs := sum_map_set cdcObj dummyObj h.objs oid (f (h.getO oid)) hlt
  simp only [measureM, Heap.update]
  have hd : h.objs.getD oid dummyObj = h.getO oid := rfl
  rw [hd] at hs
  simp only [List.length_set]
  omega

theorem measureM_alloc (h : Heap) (o : Obj) :
    measureM (h.alloc o).1 = measureM h + 1 + 2 * cdcObj o := by
  simp [measureM, Heap.alloc]
  ring

theorem measureM_defineOwn (h : Heap) (oid : Nat) (n : String) (d : Desc)
    (hlt : oid < h.objs.length) :
    measureM (h.defineOwn oid n d) + 2 * cdcList (h.getO oid).props =
      measureM h + 2 * cdcList (setProp (h.getO oid).props n d) := by
  have := measureM_update h oid (fun o => { o with props := setProp o.props n d }) hlt
  simpa [Heap.defineOwn, cdcObj] using this

theorem measureM_freezeObj (h : Heap) (oid : Nat) (hlt : oid < h.objs.length) :
    measureM (h.freezeObj oid) + 2 * cdcList (h.getO oid).props = measureM h := by
  have := measureM_update h oid (fun o =>
    { o with extensible := false,
             props := o.props.map (fun nd => (nd.1, freezeDesc nd.2)) }) hlt
  simpa [Heap.freezeObj, cdcObj, cdcList_map_freeze] using this

theorem Heap.getO_oob (h : Heap) (oid : Nat) (hge : h.objs.length ≤ oid) :
    h.getO oid = dummyObj := by
  simp only [Heap.getO, List.getD, List.get?_eq_getElem?]
  rw [List.getElem?_eq_none (by simpa using hge)]
  rfl

theorem lookup_some_mem {l : List (String × Desc)} {n : String} {d : Desc}
    (h : l.lookup n = some d) : (n, d) ∈ l := by
  induction l with
  | nil => simp [List.lookup] at h
  | cons hd t ih =>
    obtain ⟨m, e⟩ := hd
    by_cases hnm : n = m
    · subst hnm
      have : e = d := by simpa [List.lookup] using h
      simp [this]
    · have hb : (n == m) = false := beq_false_of_ne hnm
      have h2 : t.lookup n = some d := by simpa [List.lookup, hb] using h
      exact List.mem_cons_of_mem _ (ih h2)

theorem objWF_getO {h : Heap} (hWF : heapWF h) (oid : Nat) :
    objWF h.objs.length (h.getO oid) := by
  rcases Nat.lt_or_ge oid h.objs.length with hlt | hge
  · exact hWF _ (Heap.getO_mem h oid hlt)
  · rw [Heap.getO_oob h oid hge]
    exact ⟨by simp [dummyObj], by simp [dummyObj, objTargets, protoTargets, propTargets]⟩

theorem objWF_mono {o : Obj} {len len2 : Nat} (hle : len ≤ len2)
    (h : objWF len o) : objWF len2 o :=
  ⟨h.1, fun t ht => lt_of_lt_of_le (h.2 t ht) hle⟩

theorem getO_kind_ne_exotic {h : Heap} (hne : noExotic h) (oid : Nat) :
    (h.getO oid).kind ≠ TypeKind.exotic := by
  rcases Nat.lt_or_ge oid h.objs.length with hlt | hge
  · exact hne _ (Heap.getO_mem h oid hlt)
  · rw [Heap.getO_oob h oid hge]
    simp [dummyObj]

theorem mem_propTargets {o : Obj} {t : Nat} :
    t ∈ propTargets o ↔ ∃ nd ∈ o.props, t ∈ descTargets nd.2 := by
  simp [propTargets]

theorem proto_mem_objTargets {o : Obj} {p : Nat} (h : o.proto = some p) :
    p ∈ objTargets o := by
  simp [objTargets, protoTargets, h]

theorem propTargets_sub_objTargets {o : Obj} {t : Nat} (h : t ∈ propTargets o) :
    t ∈ objTargets o := by
  simp [objTargets, h]

/-! ### Lemmas about `enqueue` -/

theorem enqueue_frame (st : HState) (v : Value) (p : Option String) :
    (enqueue st v p).2.heap = st.heap ∧ (enqueue st v p).2.fringe = st.fringe ∧
    (enqueue st v p).2.protos = st.protos ∧ (enqueue st v p).2.trace = st.trace := by
  cases v with
  | undef => simp [enqueue]
  | prim n => simp [enqueue]
  | ref oid =>
    simp only [enqueue]
    split
    · simp
    · split
      · simp
      · simp

theorem enqueue_toFreeze (st : HState) (v : Value) (p : Option String) :
    (enqueue st v p).2.toFreeze = st.toFreeze ∨
    ∃ oid, v = Value.ref oid ∧ oid ∉ st.toFreeze ∧ oid ∉ st.fringe ∧
      (enqueue st v p).2.toFreeze = st.toFreeze ++ [oid] := by
  cases v with
  | undef => simp [enqueue]
  | prim n => simp [enqueue]
  | ref oid =>
    simp only [enqueue]
    split
    · simp
    · rename_i hk
      split
      · simp
      · rename_i hc
        right
        refine ⟨oid, rfl, ?_, ?_, rfl⟩
        · intro hmem
          exact hc (by simp; exact Or.inr hmem)
        · intro hmem
          exact hc (by simp; exact Or.inl hmem)

theorem enqueue_err_cases (st : HState) (v : Value) (p : Option String) :
    (enqueue st v p).1 = none ∨
    ((enqueue st v p).1 = some (JsError.unexpectedTypeof "Unexpected typeof: exotic") ∧
      (enqueue st v p).2 = st) := by
  cases v with
  | undef => simp [enqueue]
  | prim n => simp [enqueue]
  | ref oid =>
    simp only [enqueue]
    split
    · exact Or.inr ⟨rfl, rfl⟩
    · split
      · simp
      · simp

theorem enqueue_ok_ref_mem (st : HState) (oid : Nat) (p : Option String)
    (hok : (enqueue st (Value.ref oid) p).1 = none) :
    oid ∈ st.fringe ∨ oid ∈ (enqueue st (Value.ref oid) p).2.toFreeze := by
  revert hok
  simp only [enqueue]
  split
  · intro hok; cases hok
  · split
    · rename_i hc
      intro _
      rcases (by simpa using hc : st.fringe.contains oid = true ∨ st.toFreeze.contains oid = true)
        with h1 | h1
      · exact Or.inl (List.elem_iff.mp h1)
      · exact Or.inr (List.elem_iff.mp h1)
    · intro _
      exact Or.inr (by simp)

theorem enqueue_no_err (st : HState) (v : Value) (p : Option String)
    (hne : noExotic st.heap) : (enqueue st v p).1 = none := by
  cases v with
  | undef => simp [enqueue]
  | prim n => simp [enqueue]
  | ref oid =>
    simp only [enqueue]
    split
    · rename_i hk
      exact absurd hk (getO_kind_ne_exotic hne oid)
    · split <;> simp

/-! ### Lemmas about `freezeWithOverride` -/

theorem cdcObj_rawGetter (fp : Nat) (v : Value) : cdcObj (rawGetter fp v) = 0 := rfl

theorem cdcObj_rawSetter (fp : Nat) (home : Nat) (name : String) :
    cdcObj (rawSetter fp home name) = 0 := rfl

theorem cdcObj_props (o : Obj) : cdcObj o = cdcList o.props := rfl

theorem isHardenedB_of_frozen {h : Heap} {oid : Nat}
    (hext : (h.getO oid).extensible = false)
    (hfr : ∀ nd ∈ (h.getO oid).props, descFrozen nd.2 = true) :
    isHardenedB h oid = true := by
  simp [isHardenedB, hext]
  exact fun a b hab => hfr (a, b) hab

theorem cdcDesc_of_frozen {d : Desc} (h : descFrozen d = true) : cdcDesc d = 0 := by
  cases d with
  | data v w e c =>
    simp [descFrozen] at h
    simp [cdcDesc, h.2]
  | accessor g s e c => rfl

/-- Full characterization of rewriting one configurable data property. -/
theorem rewriteDataProp_spec (fp : Nat) (h : Heap) (tf : List Nat) (oid : Nat)
    (name : String) (v : Value) (w enum : Bool)
    (hOid : oid < h.objs.length)
    (hTf : ∀ x ∈ tf, x < h.objs.length)
    (hlk : (h.getO oid).props.lookup name = some (Desc.data v w enum true)) :
    (rewriteDataProp fp h tf oid name v enum).1.objs.length = h.objs.length + 2 ∧
    (∀ j, j ≠ oid → j < h.objs.length →
      (rewriteDataProp fp h tf oid name v enum).1.getO j = h.getO j) ∧
    (rewriteDataProp fp h tf oid name v enum).1.getO oid =
      { h.getO oid with props := (setProp (h.getO oid).props name
          (Desc.accessor (some (Value.ref h.objs.length))
            (some (Value.ref (h.objs.length + 1))) enum false)) } ∧
    (rewriteDataProp fp h tf oid name v enum).1.getO h.objs.length = getterObj fp v ∧
    (rewriteDataProp fp h tf oid name v enum).1.getO (h.objs.length + 1) =
      setterObj fp oid name ∧
    (rewriteDataProp fp h tf oid name v enum).2 =
      tf ++ [h.objs.length, h.objs.length + 1] ∧
    measureM (rewriteDataProp fp h tf oid name v enum).1 = measureM h := by
  have hne1 : oid ≠ h.objs.length := Nat.ne_of_lt hOid
  have hne2 : oid ≠ h.objs.length + 1 := by omega
  -- stage 1: allocate the raw getter at index `h.objs.length`
  have e1len : (h.alloc (rawGetter fp v)).1.objs.length = h.objs.length + 1 :=
    Heap.length_alloc h _
  have e1g : (h.alloc (rawGetter fp v)).1.getO h.objs.length = rawGetter fp v :=
    Heap.getO_alloc_self h _
  have e1old : ∀ j, j ≠ h.objs.length →
      (h.alloc (rawGetter fp v)).1.getO j = h.getO j :=
    fun j hj => Heap.getO_alloc_ne h _ j hj
  -- stage 2: allocate the raw setter at index `h.objs.length + 1`
  set H1 := (h.alloc (rawGetter fp v)).1 with hH1
  set H2 := (H1.alloc (rawSetter fp oid name)).1 with hH2
  have e2len : H2.objs.length = h.objs.length + 2 := by
    rw [hH2, Heap.length_alloc, e1len]
  have e2s : H2.getO (h.objs.length + 1) = rawSetter fp oid name := by
    rw [hH2, ← e1len]
    exact Heap.getO_alloc_self H1 _
  have e2at : ∀ j, j ≠ h.objs.length + 1 → H2.getO j = H1.getO j := by
    intro j hj
    rw [hH2]
    exact Heap.getO_alloc_ne H1 _ j (by rw [e1len]; exact hj)
  have e2g : H2.getO h.objs.length = rawGetter fp v := by
    rw [e2at _ (by omega)]; exact e1g
  have e2old : ∀ j, j ≠ h.objs.length → j ≠ h.objs.length + 1 →
      H2.getO j = h.getO j := by
    intro j hj1 hj2
    rw [e2at _ hj2]; exact e1old j hj1
  -- stage 3: attach the `value` property to the getter
  set H3 := H2.defineOwn h.objs.length "value" (Desc.data v true true true) with hH3
  have e3len : H3.objs.length = h.objs.length + 2 := by
    rw [hH3, Heap.defineOwn, Heap.length_update, e2len]
  have e3g : H3.getO h.objs.length =
      { rawGetter fp v with props := [("value", Desc.data v true true true)] } := by
    rw [hH3, Heap.defineOwn, Heap.getO_update_self _ _ _ (by omega), e2g]
    rfl
  have e3at : ∀ j, j ≠ h.objs.length → H3.getO j = H2.getO j := by
    intro j hj
    rw [hH3, Heap.defineOwn]
    exact Heap.getO_update_ne _ _ _ j hj
  -- stage 4: freeze the getter
  set H4 := H3.freezeObj h.objs.length with hH4
  have e4len : H4.objs.length = h.objs.length + 2 := by
    rw [hH4, Heap.freezeObj, Heap.length_update, e3len]
  have e4g : H4.getO h.objs.length = getterObj fp v := by
    rw [hH4, Heap.freezeObj, Heap.getO_update_self _ _ _ (by omega), e3g]
    rfl
  have e4at : ∀ j, j ≠ h.objs.length → H4.getO j = H3.getO j := by
    intro j hj
    rw [hH4, Heap.freezeObj]
    exact Heap.getO_update_ne _ _ _ j hj
  -- stage 5: freeze the setter
  set H5 := H4.freezeObj (h.objs.length + 1) with hH5
  have e5len : H5.objs.length = h.objs.length + 2 := by
    rw [hH5, Heap.freezeObj, Heap.length_update, e4len]
  have e5s : H5.getO (h.objs.length + 1) = setterObj fp oid name := by
    rw [hH5, Heap.freezeObj, Heap.getO_update_self _ _ _ (by omega),
      e4at _ (by omega), e3at _ (by omega), e2s]
    rfl
  have e5at : ∀ j, j ≠ h.objs.length + 1 → H5.getO j = H4.getO j := by
    intro j hj
    rw [hH5, Heap.freezeObj]
    exact Heap.getO_update_ne _ _ _ j hj
  have e5oid : H5.getO oid = h.getO oid := by
    rw [e5at _ hne2, e4at _ hne1, e3at _ hne1, e2old _ hne1 hne2]
  -- stage 6: redefine the property as the accessor pair
  set H6 := H5.defineOwn oid name
    (Desc.accessor (some (Value.ref h.objs.length))
      (some (Value.ref (h.objs.length + 1))) enum false) with hH6
  have e6len : H6.objs.length = h.objs.length + 2 := by
    rw [hH6, Heap.defineOwn, Heap.length_update, e5len]
  have e6oid : H6.getO oid =
      { h.getO oid with props := (setProp (h.getO oid).props name
          (Desc.accessor (some (Value.ref h.objs.length))
            (some (Value.ref (h.objs.length + 1))) enum false)) } := by
    rw [hH6, Heap.defineOwn, Heap.getO_update_self _ _ _ (by omega), e5oid]
    rfl
  have e6at : ∀ j, j ≠ oid → H6.getO j = H5.getO j := by
    intro j hj
    rw [hH6, Heap.defineOwn]
    exact Heap.getO_update_ne _ _ _ j hj
  -- the work set additions
  have htfadd : setAdd (setAdd tf h.objs.length) (h.objs.length + 1) =
      tf ++ [h.objs.length, h.objs.length + 1] := by
    have h1 : h.objs.length ∉ tf := fun hm => absurd (hTf _ hm) (by omega)
    have hadd1 : setAdd tf h.objs.length = tf ++ [h.objs.length] := by
      simp [setAdd, h1]
    have h2 : (h.objs.length + 1) ∉ tf ++ [h.objs.length] := by
      intro hm
      rcases List.mem_append.mp hm with hm1 | hm1
      · exact absurd (hTf _ hm1) (by omega)
      · simp at hm1
    have hadd2 : setAdd (tf ++ [h.objs.length]) (h.objs.length + 1) =
        tf ++ [h.objs.length] ++ [h.objs.length + 1] := by
      simp [setAdd, h2]
    rw [hadd1, hadd2, List.append_assoc]
    rfl
  -- the measure bookkeeping
  have m1 : measureM H1 = measureM h + 1 := by
    rw [hH1, measureM_alloc, cdcObj_rawGetter]
  have m2 : measureM H2 = measureM h + 2 := by
    rw [hH2, measureM_alloc, cdcObj_rawSetter, m1]
  have m3 : measureM H3 = measureM h + 4 := by
    have hm := measureM_defineOwn H2 h.objs.length "value" (Desc.data v true true true)
      (by rw [e2len]; omega)
    rw [e2g] at hm
    have h1 : cdcList (rawGetter fp v).props = 0 := rfl
    have h2 : cdcList (setProp (rawGetter fp v).props "value" (Desc.data v true true true)) = 1 := rfl
    rw [h1, h2, ← hH3] at hm
    omega
  have m4 : measureM H4 = measureM h + 2 := by
    have hm := measureM_freezeObj H3 h.objs.length (by rw [e3len]; omega)
    rw [e3g, ← hH4] at hm
    have h1 : cdcList
        ({ rawGetter fp v with props := [("value", Desc.data v true true true)] } : Obj).props
        = 1 := rfl
    rw [h1] at hm
    omega
  have m5 : measureM H5 = measureM h + 2 := by
    have hm := measureM_freezeObj H4 (h.objs.length + 1) (by rw [e4len]; omega)
    have e4s : H4.getO (h.objs.length + 1) = rawSetter fp oid name := by
      rw [e4at _ (by omega), e3at _ (by omega), e2s]
    rw [e4s, ← hH5] at hm
    have h1 : cdcList (rawSetter fp oid name).props = 0 := rfl
    rw [h1] at hm
    omega
  have m6 : measureM H6 = measureM h := by
    have hm := measureM_defineOwn H5 oid name
      (Desc.accessor (some (Value.ref h.objs.length))
        (some (Value.ref (h.objs.length + 1))) enum false) (by rw [e5len]; omega)
    rw [e5oid, ← hH6] at hm
    have hcdc := cdc_setProp (l := (h.getO oid).props) (n := name)
      (Desc.accessor (some (Value.ref h.objs.length))
        (some (Value.ref (h.objs.length + 1))) enum false) hlk
    simp only [cdcDesc] at hcdc
    omega
  -- assemble
  have hr : rewriteDataProp fp h tf oid name v enum =
      (H6, setAdd (setAdd tf h.objs.length) (h.objs.length + 1)) := rfl
  rw [hr]
  refine ⟨e6len, ?_, e6oid, ?_, ?_, htfadd, m6⟩
  · intro j hj hjlt
    rw [e6at _ hj, e5at _ (by omega), e4at _ (by omega), e3at _ (by omega),
      e2old _ (by omega) (by omega)]
  · rw [e6at _ (Ne.symm hne1), e5at _ (by omega), e4g]
  · rw [e6at _ (Ne.symm hne2), e5s]

/-! ### Well-formedness preservation -/

theorem heapWF_iff (h : Heap) :
    heapWF h ↔ ∀ j, j < h.objs.length → objWF h.objs.length (h.getO j) := by
  constructor
  · intro hWF j hj
    exact hWF _ (Heap.getO_mem h j hj)
  · intro hAll o ho
    obtain ⟨j, hj, rfl⟩ := List.mem_iff_getElem.mp ho
    have : h.getO j = h.objs[j] := by
      simp only [Heap.getO, List.getD, List.get?_eq_getElem?]
      rw [List.getElem?_eq_getElem hj]
      rfl
    rw [← this]
    exact hAll j hj

theorem descTargets_freezeDesc (d : Desc) :
    descTargets (freezeDesc d) = descTargets d := by
  cases d <;> rfl

theorem heapWF_alloc {h : Heap} (hWF : heapWF h) {o : Obj}
    (ho : objWF (h.objs.length + 1) o) : heapWF (h.alloc o).1 := by
  intro x hx
  rcases List.mem_append.mp hx with hm | hm
  · exact objWF_mono (by rw [Heap.length_alloc]; omega) (hWF x hm)
  · have : x = o := by simpa using hm
    subst this
    exact objWF_mono (by rw [Heap.length_alloc]) ho

theorem mem_objTargets {o : Obj} {t : Nat} :
    t ∈ objTargets o ↔ t ∈ protoTargets o ∨ t ∈ propTargets o := by
  simp [objTargets]

theorem objWF_withProp {len : Nat} {o : Obj} (hWF : objWF len o)
    {n : String} {d : Desc} (htg : ∀ t ∈ descTargets d, t < len) :
    objWF len (withProp n d o) := by
  constructor
  · by_cases hkey : n ∈ o.props.map Prod.fst
    · show ((withProp n d o).props.map Prod.fst).Nodup
      rw [withProp, mapFst_setProp_mem d hkey]
      exact hWF.1
    · show ((withProp n d o).props.map Prod.fst).Nodup
      rw [withProp, mapFst_setProp_notMem d hkey]
      simp only [List.nodup_append, List.nodup_cons, List.not_mem_nil, not_false_iff,
        List.nodup_nil, and_true, true_and]
      refine ⟨hWF.1, ?_⟩
      intro a ha hc
      simp only [List.mem_singleton] at hc
      subst hc
      exact hkey ha
  · intro t ht
    rcases mem_objTargets.mp ht with h1 | h1
    · have h1b : t ∈ protoTargets o := h1
      exact hWF.2 t (mem_objTargets.mpr (Or.inl h1b))
    · obtain ⟨nd, hnd, htd⟩ := mem_propTargets.mp h1
      have hnd2 : nd ∈ setProp o.props n d := hnd
      rcases mem_setProp nd hnd2 with h2 | h2
      · exact hWF.2 t (propTargets_sub_objTargets (mem_propTargets.mpr ⟨nd, h2, htd⟩))
      · subst h2
        exact htg t htd

theorem heapWF_defineOwn {h : Heap} (hWF : heapWF h) (oid : Nat) {n : String}
    {d : Desc} (htg : ∀ t ∈ descTargets d, t < h.objs.length) :
    heapWF (h.defineOwn oid n d) := by
  rcases Nat.lt_or_ge oid h.objs.length with hlt | hge
  · rw [heapWF_iff]
    intro j hj
    rw [Heap.defineOwn, Heap.length_update] at hj
    by_cases hj2 : j = oid
    · subst hj2
      rw [Heap.defineOwn, Heap.getO_update_self _ _ _ hlt, Heap.length_update]
      exact objWF_withProp (objWF_getO hWF j) htg
    · rw [Heap.defineOwn, Heap.getO_update_ne _ _ _ j hj2, Heap.length_update]
      exact objWF_getO hWF j
  · rw [Heap.defineOwn, Heap.update_oob _ _ _ hge]
    exact hWF

theorem mapFst_freezeFields (o : Obj) :
    (freezeFields o).props.map Prod.fst = o.props.map Prod.fst := by
  show ((o.props.map (fun nd => (nd.1, freezeDesc nd.2))).map Prod.fst) = _
  rw [List.map_map]
  rfl

theorem objWF_freezeFields {len : Nat} {o : Obj} (hWF : objWF len o) :
    objWF len (freezeFields o) := by
  constructor
  · rw [mapFst_freezeFields]
    exact hWF.1
  · intro t ht
    rcases mem_objTargets.mp ht with h1 | h1
    · have h1b : t ∈ protoTargets o := h1
      exact hWF.2 t (mem_objTargets.mpr (Or.inl h1b))
    · obtain ⟨nd, hnd, htd⟩ := mem_propTargets.mp h1
      have hnd2 : nd ∈ o.props.map (fun nd0 => (nd0.1, freezeDesc nd0.2)) := hnd
      obtain ⟨nd0, hnd0, rfl⟩ := List.mem_map.mp hnd2
      rw [descTargets_freezeDesc] at htd
      exact hWF.2 t (propTargets_sub_objTargets (mem_propTargets.mpr ⟨nd0, hnd0, htd⟩))

theorem heapWF_freezeObj {h : Heap} (hWF : heapWF h) (oid : Nat) :
    heapWF (h.freezeObj oid) := by
  rcases Nat.lt_or_ge oid h.objs.length with hlt | hge
  · rw [heapWF_iff]
    intro j hj
    rw [Heap.freezeObj, Heap.length_update] at hj
    by_cases hj2 : j = oid
    · subst hj2
      rw [Heap.freezeObj, Heap.getO_update_self _ _ _ hlt, Heap.length_update]
      exact objWF_freezeFields (objWF_getO hWF j)
    · rw [Heap.freezeObj, Heap.getO_update_ne _ _ _ j hj2, Heap.length_update]
      exact objWF_getO hWF j
  · rw [Heap.freezeObj, Heap.update_oob _ _ _ hge]
    exact hWF

theorem isHardenedB_congr {h1 h2 : Heap} {x : Nat} (he : h1.getO x = h2.getO x) :
    isHardenedB h1 x = isHardenedB h2 x := by
  simp [isHardenedB, he]

theorem isHardenedB_getterObj {h : Heap} {x : Nat} {fp : Nat} {v : Value} (he : h.getO x = getterObj fp v) :
    isHardenedB h x = true := by
  simp [isHardenedB, he, getterObj, descFrozen]

theorem isHardenedB_setterObj {h : Heap} {x : Nat} {fp : Nat} {home : Nat} {name : String}
    (he : h.getO x = setterObj fp home name) : isHardenedB h x = true := by
  simp [isHardenedB, he, setterObj]

/-- Well-formedness of the heap produced by one data-property rewrite. -/
theorem rewriteDataProp_wf (fp : Nat) (h : Heap) (tf : List Nat) (oid : Nat)
    (name : String) (v : Value) (w enum : Bool)
    (hOid : oid < h.objs.length) (hfp : fp < h.objs.length) (hWF : heapWF h)
    (hlk : (h.getO oid).props.lookup name = some (Desc.data v w enum true)) :
    heapWF (rewriteDataProp fp h tf oid name v enum).1 := by
  have hvtg : ∀ t ∈ valueTargets v, t < h.objs.length := by
    intro t ht
    have hmem := lookup_some_mem hlk
    exact (hWF _ (Heap.getO_mem h oid hOid)).2 t
      (propTargets_sub_objTargets (mem_propTargets.mpr
        ⟨(name, Desc.data v w enum true), hmem, by simpa [descTargets] using ht⟩))
  have w1 : heapWF (h.alloc (rawGetter fp v)).1 :=
    heapWF_alloc hWF (by
      refine ⟨by simp [rawGetter], ?_⟩
      intro t ht
      have ht2 : t = fp := by
        simpa [rawGetter, objTargets, protoTargets, propTargets] using ht
      omega)
  have w2 : heapWF ((h.alloc (rawGetter fp v)).1.alloc (rawSetter fp oid name)).1 :=
    heapWF_alloc w1 (by
      refine ⟨by simp [rawSetter], ?_⟩
      intro t ht
      have ht2 : t = fp := by
        simpa [rawSetter, objTargets, protoTargets, propTargets] using ht
      rw [Heap.length_alloc]
      omega)
  have hlen2 : ((h.alloc (rawGetter fp v)).1.alloc (rawSetter fp oid name)).1.objs.length =
      h.objs.length + 2 := by
    rw [Heap.length_alloc, Heap.length_alloc]
  have w3 : heapWF (((h.alloc (rawGetter fp v)).1.alloc (rawSetter fp oid name)).1.defineOwn
      h.objs.length "value" (Desc.data v true true true)) := by
    refine heapWF_defineOwn w2 _ ?_
    intro t ht
    rw [hlen2]
    have := hvtg t (by simpa [descTargets] using ht)
    omega
  have w4 := heapWF_freezeObj w3 h.objs.length
  have w5 := heapWF_freezeObj w4 (h.objs.length + 1)
  have w6 : heapWF ((((((h.alloc (rawGetter fp v)).1.alloc (rawSetter fp oid name)).1.defineOwn
      h.objs.length "value" (Desc.data v true true true)).freezeObj
      h.objs.length).freezeObj (h.objs.length + 1)).defineOwn oid name
      (Desc.accessor (some (Value.ref h.objs.length))
        (some (Value.ref (h.objs.length + 1))) enum false)) := by
    refine heapWF_defineOwn w5 _ ?_
    intro t ht
    have hlen5 : (((((h.alloc (rawGetter fp v)).1.alloc (rawSetter fp oid
        name)).1.defineOwn h.objs.length "value" (Desc.data v true true
        true)).freezeObj h.objs.length).freezeObj (h.objs.length + 1)).objs.length =
        h.objs.length + 2 := by
      rw [Heap.freezeObj, Heap.length_update, Heap.freezeObj, Heap.length_update,
        Heap.defineOwn, Heap.length_update, hlen2]
    rw [hlen5]
    rcases (by simpa [descTargets, valueTargets] using ht :
        t = h.objs.length ∨ t = h.objs.length + 1) with h1 | h1 <;> omega
  exact w6

theorem cdcList_cons (nd : String × Desc) (t : List (String × Desc)) :
    cdcList (nd :: t) = cdcDesc nd.2 + cdcList t := by
  simp [cdcList]

theorem descTargets_accessor_flags (g s : Option Value) (e1 c1 e2 c2 : Bool) :
    descTargets (Desc.accessor g s e1 c1) = descTargets (Desc.accessor g s e2 c2) := rfl

/-- The invariant-carrying characterization of the `freezeWithOverride`
loop over a descriptor snapshot. -/
theorem fwoFold_spec (fp : Nat) (oid : Nat) (l : List (String × Desc)) :
    ∀ (h : Heap) (tf : List Nat),
      oid < h.objs.length →
      (∀ x ∈ tf, x < h.objs.length) →
      fp < h.objs.length →
      (∀ nd ∈ l, (h.getO oid).props.lookup nd.1 = some nd.2) →
      (l.map Prod.fst).Nodup →
      heapWF h →
      FwoFacts fp h tf oid l (l.foldl (fwoStep fp oid) (h, tf)) := by
  induction l with
  | nil =>
    intro h tf hOid hTf hfp hIntact hKeys hWF
    simp only [List.foldl_nil]
    refine ⟨by simp [cdcList], fun j hj hjlt => rfl, rfl, rfl, rfl, rfl,
      ⟨[], by simp, List.nodup_nil, by simp⟩, ?_, rfl, hWF, ?_, fun m hm => rfl⟩
    · intro x hx1 hx2
      exfalso
      simp only [cdcList, List.map_nil, List.sum_nil, Nat.mul_zero, Nat.add_zero] at hx2
      omega
    · intro name v w enum hmem
      simp at hmem
  | cons hd t ih =>
    intro h tf hOid hTf hfp hIntact hKeys hWF
    obtain ⟨name, d⟩ := hd
    have hKeysT : (t.map Prod.fst).Nodup := by
      have h2 := hKeys
      simp only [List.map_cons, List.nodup_cons] at h2
      exact h2.2
    have hNameNotT : name ∉ t.map Prod.fst := by
      have h2 := hKeys
      simp only [List.map_cons, List.nodup_cons] at h2
      exact h2.1
    have hIntactT : ∀ nd ∈ t, (h.getO oid).props.lookup nd.1 = some nd.2 :=
      fun nd hnd => hIntact nd (List.mem_cons_of_mem _ hnd)
    have hneName : ∀ nd ∈ t, nd.1 ≠ name := by
      intro nd hnd hc
      exact hNameNotT (hc ▸ List.mem_map.mpr ⟨nd, hnd, rfl⟩)
    simp only [List.foldl_cons]
    rcases d with ⟨v, w, enum, c⟩ | ⟨g, s, enum, c⟩
    · cases c
      · -- non-configurable data property: skipped
        have hstep : fwoStep fp oid (h, tf) (name, Desc.data v w enum false) = (h, tf) := rfl
        rw [hstep]
        have F := ih h tf hOid hTf hfp hIntactT hKeysT hWF
        refine ⟨?_, F.stable, F.kindEq, F.protoEq, F.strFailEq, F.keysEq, F.tfExt,
          ?_, F.measEq, F.wf, ?_, ?_⟩
        · rw [F.lenEq, cdcList_cons]
          simp [cdcDesc]
        · intro x hx1 hx2
          exact F.freshShape x hx1 hx2
        · intro name2 v2 w2 enum2 hmem
          rcases List.mem_cons.mp hmem with h1 | h1
          · exact absurd h1 (by simp)
          · exact F.rewritten name2 v2 w2 enum2 h1
        · intro m hm
          exact F.lookupPres m (fun hc => hm (by simpa using Or.inr hc))
      · -- configurable data property: the override rewrite
        have hlk := hIntact (name, Desc.data v w enum true) (List.mem_cons_self _ _)
        have hstep : fwoStep fp oid (h, tf) (name, Desc.data v w enum true) =
            rewriteDataProp fp h tf oid name v enum := rfl
        rw [hstep]
        obtain ⟨slen, sstable, soid, sg, ss, stf, smeas⟩ :=
          rewriteDataProp_spec fp h tf oid name v w enum hOid hTf hlk
        have swf := rewriteDataProp_wf fp h tf oid name v w enum hOid hfp hWF hlk
        have hnameKeys : name ∈ (h.getO oid).props.map Prod.fst :=
          List.mem_map.mpr ⟨(name, Desc.data v w enum true), lookup_some_mem hlk, rfl⟩
        set R := rewriteDataProp fp h tf oid name v enum with hR
        have hOid2 : oid < R.1.objs.length := by rw [slen]; omega
        have hTf2 : ∀ x ∈ R.2, x < R.1.objs.length := by
          intro x hx
          rw [stf] at hx
          rw [slen]
          rcases List.mem_append.mp hx with hm | hm
          · have := hTf x hm; omega
          · simp at hm; omega
        have hRoidprops : (R.1.getO oid).props = setProp (h.getO oid).props name
            (Desc.accessor (some (Value.ref h.objs.length))
              (some (Value.ref (h.objs.length + 1))) enum false) := by
          rw [soid]
        have hIntact2 : ∀ nd ∈ t, (R.1.getO oid).props.lookup nd.1 = some nd.2 := by
          intro nd hnd
          rw [hRoidprops, lookup_setProp_ne _ _ _ _ (hneName nd hnd)]
          exact hIntactT nd hnd
        have F := ih R.1 R.2 hOid2 hTf2 (by rw [slen]; omega) hIntact2 hKeysT swf
        have hFinalLen : (t.foldl (fwoStep fp oid) (R.1, R.2)).1.objs.length =
            h.objs.length + 2 + 2 * cdcList t := by
          rw [F.lenEq, slen]
        refine ⟨?_, ?_, ?_, ?_, ?_, ?_, ?_, ?_, ?_, F.wf, ?_, ?_⟩
        · rw [hFinalLen, cdcList_cons]
          show h.objs.length + 2 + 2 * cdcList t =
            h.objs.length + 2 * (1 + cdcList t)
          ring
        · intro j hj hjlt
          rw [F.stable j hj (by rw [slen]; omega)]
          exact sstable j hj hjlt
        · rw [F.kindEq, soid]
        · rw [F.protoEq, soid]
        · rw [F.strFailEq, soid]
        · rw [F.keysEq, hRoidprops, mapFst_setProp_mem _ hnameKeys]
        · obtain ⟨fr1, hfr1, hfr1nd, hfr1b⟩ := F.tfExt
          refine ⟨[h.objs.length, h.objs.length + 1] ++ fr1, ?_, ?_, ?_⟩
          · rw [hfr1, stf, List.append_assoc]
          · have hnd2 : fr1.Nodup := hfr1nd
            have hnotin : ∀ x ∈ fr1, h.objs.length + 2 ≤ x := by
              intro x hx
              have := (hfr1b x hx).1
              rw [slen] at this
              omega
            simp only [List.cons_append, List.nil_append, List.nodup_cons]
            refine ⟨?_, ?_, hnd2⟩
            · intro hc
              rcases List.mem_cons.mp hc with h1 | h1
              · omega
              · have := hnotin _ h1; omega
            · intro hc
              have := hnotin _ hc; omega
          · intro x hx
            rcases List.mem_append.mp hx with hm | hm
            · have hor : x = h.objs.length ∨ x = h.objs.length + 1 := by
                simpa using hm
              constructor
              · omega
              · rw [hFinalLen]; omega
            · have h1 := hfr1b x hm
              have h2 := (hfr1b x hm).1
              rw [slen] at h2
              exact ⟨by omega, h1.2⟩
        · intro x hx1 hx2
          by_cases hx3 : h.objs.length + 2 ≤ x
          · exact F.freshShape x (by rw [slen]; omega) hx2
          · have hor : x = h.objs.length ∨ x = h.objs.length + 1 := by omega
            have hxo : x ≠ oid := by omega
            have hxe : (t.foldl (fwoStep fp oid) (R.1, R.2)).1.getO x = R.1.getO x :=
              F.stable x (by omega) (by rw [slen]; omega)
            rcases hor with h1 | h1
            · subst h1
              refine ⟨isHardenedB_getterObj (hxe.trans sg), ?_, ?_⟩
              · rw [hxe, sg]
                rfl
              · rw [hxe, sg]
                rfl
            · subst h1
              refine ⟨isHardenedB_setterObj (hxe.trans ss), ?_, ?_⟩
              · rw [hxe, ss]
                rfl
              · rw [hxe, ss]
                rfl
        · rw [F.measEq, smeas]
        · intro name2 v2 w2 enum2 hmem
          rcases List.mem_cons.mp hmem with h1 | h1
          · rw [Prod.mk.injEq] at h1
            obtain ⟨e0, e5⟩ := h1
            injection e5 with ev ew ee ec
            rw [e0, ev, ee]
            refine ⟨h.objs.length, h.objs.length + 1, by omega, by omega, ?_, ?_, ?_, ?_, ?_⟩
            · rw [F.lookupPres name hNameNotT, hRoidprops, lookup_setProp_self]
            · rw [F.stable _ (by omega) (by rw [slen]; omega)]
              exact sg
            · rw [F.stable _ (by omega) (by rw [slen]; omega)]
              exact ss
            · obtain ⟨fr1, hfr1, _, _⟩ := F.tfExt
              rw [hfr1, stf]
              simp
            · obtain ⟨fr1, hfr1, _, _⟩ := F.tfExt
              rw [hfr1, stf]
              simp
          · obtain ⟨gid, sid, hb1, hb2, c1, c2, c3, c4, c5⟩ :=
              F.rewritten name2 v2 w2 enum2 h1
            rw [slen] at hb1 hb2
            exact ⟨gid, sid, by omega, by omega, c1, c2, c3, c4, c5⟩
        · intro m hm
          have hmname : m ≠ name := fun hc => hm (by simp [hc])
          have hmt : m ∉ t.map Prod.fst := fun hc => hm (by simpa using Or.inr hc)
          rw [F.lookupPres m hmt, hRoidprops, lookup_setProp_ne _ _ _ _ hmname]
    · cases c
      · -- non-configurable accessor property: skipped
        have hstep : fwoStep fp oid (h, tf) (name, Desc.accessor g s enum false) = (h, tf) := rfl
        rw [hstep]
        have F := ih h tf hOid hTf hfp hIntactT hKeysT hWF
        refine ⟨?_, F.stable, F.kindEq, F.protoEq, F.strFailEq, F.keysEq, F.tfExt,
          ?_, F.measEq, F.wf, ?_, ?_⟩
        · rw [F.lenEq, cdcList_cons]
          simp [cdcDesc]
        · intro x hx1 hx2
          exact F.freshShape x hx1 hx2
        · intro name2 v2 w2 enum2 hmem
          rcases List.mem_cons.mp hmem with h1 | h1
          · exact absurd h1 (by simp)
          · exact F.rewritten name2 v2 w2 enum2 h1
        · intro m hm
          exact F.lookupPres m (fun hc => hm (by simpa using Or.inr hc))
      · -- configurable accessor property: re-declared non-configurable
        have hlk := hIntact (name, Desc.accessor g s enum true) (List.mem_cons_self _ _)
        have hstep : fwoStep fp oid (h, tf) (name, Desc.accessor g s enum true) =
            (h.defineOwn oid name (Desc.accessor g s enum false), tf) := rfl
        rw [hstep]
        have hnameKeys : name ∈ (h.getO oid).props.map Prod.fst :=
          List.mem_map.mpr ⟨(name, Desc.accessor g s enum true), lookup_some_mem hlk, rfl⟩
        have htg : ∀ x ∈ descTargets (Desc.accessor g s enum false), x < h.objs.length := by
          intro x hx
          rw [descTargets_accessor_flags g s enum false enum true] at hx
          exact (objWF_getO hWF oid).2 x (propTargets_sub_objTargets
            (mem_propTargets.mpr ⟨(name, Desc.accessor g s enum true),
              lookup_some_mem hlk, hx⟩))
        set D := h.defineOwn oid name (Desc.accessor g s enum false) with hD
        have dlen : D.objs.length = h.objs.length := by
          rw [hD, Heap.defineOwn, Heap.length_update]
        have doid : D.getO oid = withProp name (Desc.accessor g s enum false) (h.getO oid) := by
          rw [hD, Heap.defineOwn, Heap.getO_update_self _ _ _ hOid]
        have doidprops : (D.getO oid).props = setProp (h.getO oid).props name
            (Desc.accessor g s enum false) := by
          rw [doid]
          rfl
        have dat : ∀ j, j ≠ oid → D.getO j = h.getO j := by
          intro j hj
          rw [hD, Heap.defineOwn]
          exact Heap.getO_update_ne _ _ _ j hj
        have dwf : heapWF D := heapWF_defineOwn hWF oid htg
        have dmeas : measureM D = measureM h := by
          have hm := measureM_defineOwn h oid name (Desc.accessor g s enum false) hOid
          have hcdc := cdc_setProp (l := (h.getO oid).props) (n := name)
            (Desc.accessor g s enum false) hlk
          rw [← hD] at hm
          simp only [cdcDesc] at hcdc
          omega
        have hOid2 : oid < D.objs.length := by rw [dlen]; omega
        have hTf2 : ∀ x ∈ tf, x < D.objs.length := by
          intro x hx; rw [dlen]; exact hTf x hx
        have hIntact2 : ∀ nd ∈ t, (D.getO oid).props.lookup nd.1 = some nd.2 := by
          intro nd hnd
          rw [doidprops, lookup_setProp_ne _ _ _ _ (hneName nd hnd)]
          exact hIntactT nd hnd
        have F := ih D tf hOid2 hTf2 (by rw [dlen]; omega) hIntact2 hKeysT dwf
        refine ⟨?_, ?_, ?_, ?_, ?_, ?_, ?_, ?_, ?_, F.wf, ?_, ?_⟩
        · rw [F.lenEq, dlen, cdcList_cons]
          simp [cdcDesc]
        · intro j hj hjlt
          rw [F.stable j hj (by rw [dlen]; omega), dat j hj]
        · rw [F.kindEq, doid]
          rfl
        · rw [F.protoEq, doid]
          rfl
        · rw [F.strFailEq, doid]
          rfl
        · rw [F.keysEq, doidprops, mapFst_setProp_mem _ hnameKeys]
        · obtain ⟨fr1, hfr1, hfr1nd, hfr1b⟩ := F.tfExt
          refine ⟨fr1, hfr1, hfr1nd, ?_⟩
          intro x hx
          have h1 := hfr1b x hx
          rw [dlen] at h1
          exact h1
        · intro x hx1 hx2
          exact F.freshShape x (by rw [dlen]; omega) hx2
        · rw [F.measEq, dmeas]
        · intro name2 v2 w2 enum2 hmem
          rcases List.mem_cons.mp hmem with h1 | h1
          · exact absurd h1 (by simp)
          · obtain ⟨gid, sid, hb1, hb2, c1, c2, c3, c4, c5⟩ :=
              F.rewritten name2 v2 w2 enum2 h1
            rw [dlen] at hb1 hb2
            exact ⟨gid, sid, hb1, hb2, c1, c2, c3, c4, c5⟩
        · intro m hm
          have hmname : m ≠ name := fun hc => hm (by simp [hc])
          have hmt : m ∉ t.map Prod.fst := fun hc => hm (by simpa using Or.inr hc)
          rw [F.lookupPres m hmt, doidprops, lookup_setProp_ne _ _ _ _ hmname]

theorem lookup_map_freezeDesc (l : List (String × Desc)) (n : String) :
    (l.map (fun nd => (nd.1, freezeDesc nd.2))).lookup n = (l.lookup n).map freezeDesc := by
  induction l with
  | nil => simp [List.lookup]
  | cons hd t ih =>
    obtain ⟨m, e⟩ := hd
    by_cases hnm : n = m
    · subst hnm
      simp [List.lookup]
    · have hb : (n == m) = false := beq_false_of_ne hnm
      simp [List.lookup, hb, ih]

theorem isHardenedB_freezeObj (h : Heap) (oid : Nat) (hlt : oid < h.objs.length) :
    isHardenedB (h.freezeObj oid) oid = true := by
  have he : (h.freezeObj oid).getO oid = freezeFields (h.getO oid) := by
    rw [Heap.freezeObj]
    exact Heap.getO_update_self _ _ _ hlt
  simp only [isHardenedB, he, freezeFields]
  simp only [Bool.not_false, Bool.true_and]
  rw [List.all_eq_true]
  rintro ⟨a, b⟩ hab
  simp only [List.mem_map] at hab
  obtain ⟨nd0, hnd0, heq⟩ := hab
  have : b = freezeDesc nd0.2 := (congrArg Prod.snd heq).symm
  subst this
  exact descFrozen_freezeDesc nd0.2

/-- Full characterization of `freezeWithOverride`. -/
theorem freezeWithOverride_spec (fp : Nat) (h : Heap) (tf : List Nat) (oid : Nat)
    (hOid : oid < h.objs.length) (hTf : ∀ x ∈ tf, x < h.objs.length)
    (hfp : fp < h.objs.length) (hWF : heapWF h) :
    FreezeFacts fp h tf oid (freezeWithOverride fp h tf oid) := by
  have hKeys : ((h.getO oid).props.map Prod.fst).Nodup := (objWF_getO hWF oid).1
  have hIntact : ∀ nd ∈ (h.getO oid).props,
      (h.getO oid).props.lookup nd.1 = some nd.2 := by
    intro nd hnd
    obtain ⟨a, b⟩ := nd
    exact lookup_of_mem_nodup hKeys hnd
  have F := fwoFold_spec fp oid (h.getO oid).props h tf hOid hTf hfp hIntact hKeys hWF
  set r := (h.getO oid).props.foldl (fwoStep fp oid) (h, tf) with hr
  have hOidr : oid < r.1.objs.length := by
    rw [F.lenEq]; omega
  have heq : freezeWithOverride fp h tf oid = (r.1.freezeObj oid, r.2) := rfl
  rw [heq]
  have hfr : ∀ j, j ≠ oid → (r.1.freezeObj oid).getO j = r.1.getO j := by
    intro j hj
    rw [Heap.freezeObj]
    exact Heap.getO_update_ne _ _ _ j hj
  have hfo : (r.1.freezeObj oid).getO oid = freezeFields (r.1.getO oid) := by
    rw [Heap.freezeObj]
    exact Heap.getO_update_self _ _ _ hOidr
  have hflen : (r.1.freezeObj oid).objs.length = r.1.objs.length := by
    rw [Heap.freezeObj, Heap.length_update]
  constructor
  · rw [hflen, F.lenEq, cdcObj_props]
  · intro j hj hjlt
    rw [hfr j hj]
    exact F.stable j hj hjlt
  · exact isHardenedB_freezeObj r.1 oid hOidr
  · rw [hfo, ← F.kindEq]
    rfl
  · rw [hfo, ← F.protoEq]
    rfl
  · rw [hfo, ← F.strFailEq]
    rfl
  · obtain ⟨fresh, hf1, hf2, hf3⟩ := F.tfExt
    refine ⟨fresh, hf1, hf2, ?_⟩
    intro x hx
    rw [hflen]
    exact hf3 x hx
  · intro x hx1 hx2
    rw [hflen] at hx2
    have hxo : x ≠ oid := by omega
    have hsh := F.freshShape x hx1 hx2
    refine ⟨?_, ?_, ?_⟩
    · rw [isHardenedB_congr (hfr x hxo)]
      exact hsh.1
    · rw [hfr x hxo]
      exact hsh.2.1
    · rw [hfr x hxo]
      exact hsh.2.2
  · have hm := measureM_freezeObj r.1 oid hOidr
    rw [F.measEq] at hm
    show measureM (r.1.freezeObj oid) ≤ measureM h
    omega
  · exact heapWF_freezeObj F.wf oid
  · intro name v w enum hlk
    obtain ⟨gid, sid, hb1, hb2, h1, h2, h3, h4, h5⟩ :=
      F.rewritten name v w enum (lookup_some_mem hlk)
    have hgo : gid ≠ oid := by omega
    have hso : sid ≠ oid := by omega
    refine ⟨gid, sid, hb1, hb2, ?_, ?_, ?_, h4, h5⟩
    · rw [hfo]
      show ((r.1.getO oid).props.map (fun nd => (nd.1, freezeDesc nd.2))).lookup name = _
      rw [lookup_map_freezeDesc, h1]
      rfl
    · rw [hfr gid hgo]
      exact h2
    · rw [hfr sid hso]
      exact h3

/-! ### The descriptor-enqueueing fold of `freezeAndTraverse` -/

theorem mem_valueTargets {v : Value} {t : Nat} :
    t ∈ valueTargets v ↔ v = Value.ref t := by
  cases v <;> simp [valueTargets, eq_comm]

theorem descTargets_accessor (g s : Option Value) (e c : Bool) :
    descTargets (Desc.accessor g s e c) =
      valueTargets (g.getD Value.undef) ++ valueTargets (s.getD Value.undef) := by
  cases g <;> cases s <;> rfl

theorem enqueue_tf_prefix (st : HState) (v : Value) (p : Option String) :
    ∃ l, (enqueue st v p).2.toFreeze = st.toFreeze ++ l ∧ (st.toFreeze ++ l).Nodup = st.toFreeze.Nodup ∧
      ∀ x ∈ l, x ∉ st.fringe ∧ x ∈ valueTargets v := by
  rcases enqueue_toFreeze st v p with h | ⟨oid, hv, h1, h2, h3⟩
  · exact ⟨[], by simpa using h, by simp, by simp⟩
  · refine ⟨[oid], h3, ?_, ?_⟩
    · simp [List.nodup_append, h1]
    · intro x hx
      have : x = oid := by simpa using hx
      subst this
      exact ⟨h2, by simp [hv, valueTargets]⟩

/-- Facts about a single `enqueueDesc` call, phrased over the singleton
descriptor list so that they compose into `EnqFacts` for the whole fold. -/
theorem enqueueDesc_facts (path : String) (name : String) (d : Desc) (st : HState) :
    EnqFacts st [(name, d)] (enqueueDesc path name d st) := by
  rcases d with ⟨v, w, enum, c⟩ | ⟨g, s, enum, c⟩
  · -- data descriptor: one enqueue of the stored value
    have hstep : enqueueDesc path name (Desc.data v w enum c) st =
        enqueue st v (some (path ++ "." ++ name)) := rfl
    rw [hstep]
    have hf := enqueue_frame st v (some (path ++ "." ++ name))
    obtain ⟨l, hl, hnd, hlf⟩ := enqueue_tf_prefix st v (some (path ++ "." ++ name))
    refine ⟨hf.1, hf.2.1, hf.2.2.1, hf.2.2.2, ⟨l, hl, ?_⟩, ?_, ?_, ?_, ?_⟩
    · intro x hx
      exact ⟨(hlf x hx).1, ⟨(name, Desc.data v w enum c), by simp,
        by simpa [descTargets] using (hlf x hx).2⟩⟩
    · intro h
      rw [hl, hnd]
      exact h
    · intro hok nd hnd2 t ht
      have : nd = (name, Desc.data v w enum c) := by simpa using hnd2
      subst this
      have hv : v = Value.ref t := mem_valueTargets.mp (by simpa [descTargets] using ht)
      subst hv
      exact enqueue_ok_ref_mem st t _ hok
    · rcases enqueue_err_cases st v (some (path ++ "." ++ name)) with h | ⟨h, _⟩
      · exact Or.inl h
      · exact Or.inr ⟨_, h⟩
    · intro hne
      exact enqueue_no_err st v _ hne
  · -- accessor descriptor: enqueue the getter, then the setter
    have hstep : enqueueDesc path name (Desc.accessor g s enum c) st =
        thenDo (enqueue st (g.getD Value.undef) (some (path ++ "." ++ name ++ "(get)")))
          (fun st1 => enqueue st1 (s.getD Value.undef)
            (some (path ++ "." ++ name ++ "(set)"))) := rfl
    rw [hstep]
    rcases hcase : enqueue st (g.getD Value.undef) (some (path ++ "." ++ name ++ "(get)"))
      with ⟨e1, st1⟩
    rcases e1 with _ | e1
    · -- first enqueue succeeded; the composite is the second enqueue from st1
      have hthen : thenDo (Option.none, st1)
          (fun st2 => enqueue st2 (s.getD Value.undef)
            (some (path ++ "." ++ name ++ "(set)"))) =
          enqueue st1 (s.getD Value.undef) (some (path ++ "." ++ name ++ "(set)")) := rfl
      rw [hthen]
      have hf1 := enqueue_frame st (g.getD Value.undef) (some (path ++ "." ++ name ++ "(get)"))
      rw [hcase] at hf1
      obtain ⟨l1, hl1, hnd1, hlf1⟩ :=
        enqueue_tf_prefix st (g.getD Value.undef) (some (path ++ "." ++ name ++ "(get)"))
      rw [hcase] at hl1
      have hf2 := enqueue_frame st1 (s.getD Value.undef) (some (path ++ "." ++ name ++ "(set)"))
      obtain ⟨l2, hl2, hnd2, hlf2⟩ :=
        enqueue_tf_prefix st1 (s.getD Value.undef) (some (path ++ "." ++ name ++ "(set)"))
      refine ⟨hf2.1.trans hf1.1, hf2.2.1.trans hf1.2.1,
        hf2.2.2.1.trans hf1.2.2.1, hf2.2.2.2.trans hf1.2.2.2, ?_, ?_, ?_, ?_, ?_⟩
      · refine ⟨l1 ++ l2, by rw [hl2, hl1, List.append_assoc], ?_⟩
        intro x hx
        rcases List.mem_append.mp hx with hm | hm
        · exact ⟨(hlf1 x hm).1, ⟨(name, Desc.accessor g s enum c), by simp,
            by rw [descTargets_accessor]
               exact List.mem_append.mpr (Or.inl (hlf1 x hm).2)⟩⟩
        · have hfr : x ∉ st.fringe := by
            rw [← hf1.2.1]
            exact (hlf2 x hm).1
          exact ⟨hfr, ⟨(name, Desc.accessor g s enum c), by simp,
            by rw [descTargets_accessor]
               exact List.mem_append.mpr (Or.inr (hlf2 x hm).2)⟩⟩
      · intro h
        rw [hl2, hnd2, hl1, hnd1]
        exact h
      · intro hok nd hnd0 t ht
        have : nd = (name, Desc.accessor g s enum c) := by simpa using hnd0
        subst this
        rw [descTargets_accessor] at ht
        rcases List.mem_append.mp ht with hm | hm
        · -- target of the getter: covered by the first enqueue
          have hv : g.getD Value.undef = Value.ref t := mem_valueTargets.mp hm
          have := enqueue_ok_ref_mem st t (some (path ++ "." ++ name ++ "(get)"))
            (by rw [← hv, hcase])
          rw [← hv, hcase] at this
          rcases this with h1 | h1
          · exact Or.inl h1
          · right
            rw [hl2]
            exact List.mem_append.mpr (Or.inl h1)
        · -- target of the setter: covered by the second enqueue
          have hv : s.getD Value.undef = Value.ref t := mem_valueTargets.mp hm
          have := enqueue_ok_ref_mem st1 t (some (path ++ "." ++ name ++ "(set)"))
            (by rw [← hv]; exact hok)
          rw [← hv] at this
          rcases this with h1 | h1
          · exact Or.inl (hf1.2.1 ▸ h1)
          · exact Or.inr h1
      · rcases enqueue_err_cases st1 (s.getD Value.undef)
          (some (path ++ "." ++ name ++ "(set)")) with h | ⟨h, _⟩
        · exact Or.inl h
        · exact Or.inr ⟨_, h⟩
      · intro hne
        have hne1 : noExotic st1.heap := by
          rw [hf1.1]
          exact hne
        exact enqueue_no_err st1 (s.getD Value.undef) _ hne1
    · -- first enqueue failed: the error propagates, the state is untouched
      have hst1 : st1 = st := by
        rcases enqueue_err_cases st (g.getD Value.undef)
          (some (path ++ "." ++ name ++ "(get)")) with h | ⟨_, h⟩
        · rw [hcase] at h; cases h
        · rw [hcase] at h; exact h
      have herr : e1 = JsError.unexpectedTypeof "Unexpected typeof: exotic" := by
        rcases enqueue_err_cases st (g.getD Value.undef)
          (some (path ++ "." ++ name ++ "(get)")) with h | ⟨h, _⟩
        · rw [hcase] at h; cases h
        · rw [hcase] at h
          simpa using h
      have hthen : thenDo (some e1, st1)
          (fun st2 => enqueue st2 (s.getD Value.undef)
            (some (path ++ "." ++ name ++ "(set)"))) = (some e1, st1) := rfl
      rw [hthen]
      subst hst1
      refine ⟨rfl, rfl, rfl, rfl, ⟨[], by simp, by simp⟩, fun h => h, ?_, ?_, ?_⟩
      · intro hok
        cases hok
      · exact Or.inr ⟨_, by rw [herr]⟩
      · intro hne
        have := enqueue_no_err st1 (g.getD Value.undef)
          (some (path ++ "." ++ name ++ "(get)")) hne
        rw [hcase] at this
        cases this

theorem foldl_thenDo_error (g : String × Desc → HState → Option JsError × HState)
    (props : List (String × Desc)) (e : JsError) (stE : HState) :
    props.foldl (fun acc nd => thenDo acc (fun s => g nd s)) (some e, stE) =
      (some e, stE) := by
  induction props with
  | nil => rfl
  | cons hd t ih => simpa [thenDo] using ih

/-- The whole outbound-link enqueueing fold of `freezeAndTraverse`. -/
theorem enqueueDescFold_facts (path : String) (props : List (String × Desc)) :
    ∀ st : HState, EnqFacts st props (props.foldl
      (fun acc nd => thenDo acc (fun s => enqueueDesc path nd.1 nd.2 s)) (none, st)) := by
  induction props with
  | nil =>
    intro st
    exact ⟨rfl, rfl, rfl, rfl, ⟨[], by simp, by simp⟩, fun h => h,
      by intro _ nd hnd; simp at hnd, Or.inl rfl, fun _ => rfl⟩
  | cons hd t ih =>
    intro st
    simp only [List.foldl_cons]
    have hred : thenDo (none, st) (fun s => enqueueDesc path hd.1 hd.2 s) =
        enqueueDesc path hd.1 hd.2 st := rfl
    rw [hred]
    have E1 := enqueueDesc_facts path hd.1 hd.2 st
    rcases hcase : enqueueDesc path hd.1 hd.2 st with ⟨e1, st1⟩
    rw [hcase] at E1
    rcases e1 with _ | e1
    · -- head succeeded: continue with the tail fold from st1
      have E2 := ih st1
      refine ⟨E2.heapEq.trans E1.heapEq, E2.fringeEq.trans E1.fringeEq,
        E2.protosEq.trans E1.protosEq, E2.traceEq.trans E1.traceEq, ?_, ?_, ?_,
        E2.errTypeof, ?_⟩
      · obtain ⟨l1, hl1, hc1⟩ := E1.tfExt
        obtain ⟨l2, hl2, hc2⟩ := E2.tfExt
        refine ⟨l1 ++ l2, ?_, ?_⟩
        · rw [hl2]
          show st1.toFreeze ++ l2 = st.toFreeze ++ (l1 ++ l2)
          rw [(by exact hl1 : st1.toFreeze = st.toFreeze ++ l1), List.append_assoc]
        · intro x hx
          rcases List.mem_append.mp hx with hm | hm
          · obtain ⟨hfr, nd, hnd, htg⟩ := hc1 x hm
            have : nd = hd := by simpa using hnd
            subst this
            exact ⟨hfr, nd, List.mem_cons_self _ _, htg⟩
          · obtain ⟨hfr, nd, hnd, htg⟩ := hc2 x hm
            refine ⟨by rw [← E1.fringeEq]; exact hfr, nd, List.mem_cons_of_mem _ hnd, htg⟩
      · intro h
        exact E2.nodup (E1.nodup h)
      · intro hok nd hnd t0 ht0
        rcases List.mem_cons.mp hnd with h1 | h1
        · subst h1
          have hcov := E1.covered rfl (nd.1, nd.2) (by simp) t0 ht0
          rcases hcov with h2 | h2
          · exact Or.inl h2
          · right
            obtain ⟨l2, hl2, _⟩ := E2.tfExt
            rw [hl2]
            exact List.mem_append.mpr (Or.inl h2)
        · have hcov := E2.covered hok nd h1 t0 ht0
          rcases hcov with h2 | h2
          · exact Or.inl (E1.fringeEq ▸ h2)
          · exact Or.inr h2
      · intro hne
        exact E2.noErr (by rw [E1.heapEq]; exact hne)
    · -- head failed: the error propagates unchanged through the rest
      rw [foldl_thenDo_error]
      refine ⟨E1.heapEq, E1.fringeEq, E1.protosEq, E1.traceEq, ?_, E1.nodup, ?_, ?_, ?_⟩
      · obtain ⟨l1, hl1, hc1⟩ := E1.tfExt
        refine ⟨l1, hl1, ?_⟩
        intro x hx
        obtain ⟨hfr, nd, hnd, htg⟩ := hc1 x hx
        have : nd = hd := by simpa using hnd
        subst this
        exact ⟨hfr, nd, List.mem_cons_self _ _, htg⟩
      · intro hok
        cases hok
      · rcases E1.errTypeof with h | h
        · cases h
        · exact Or.inr h
      · intro hne
        exact absurd (E1.noErr hne) (by simp)

/-! ### `recordProto` and pointwise heap predicates -/

theorem lookup_append_nat (l1 l2 : List (Nat × String)) (k : Nat) :
    (l1 ++ l2).lookup k =
      match l1.lookup k with
      | some v => some v
      | none => l2.lookup k := by
  induction l1 with
  | nil => simp [List.lookup]
  | cons hd t ih =>
    obtain ⟨a, b⟩ := hd
    by_cases hk : k = a
    · subst hk
      simp [List.lookup]
    · have hb : (k == a) = false := beq_false_of_ne hk
      simp [List.lookup, hb, ih]

theorem recordProto_spec (st : HState) (oid : Nat) (path : String) :
    (recordProto st oid path).heap = st.heap ∧
    (recordProto st oid path).fringe = st.fringe ∧
    (recordProto st oid path).toFreeze = st.toFreeze ∧
    (recordProto st oid path).trace = st.trace ∧
    (∃ l, (recordProto st oid path).protos = st.protos ++ l ∧
      (l = [] ∨ ∃ p, (st.heap.getO oid).proto = some p ∧ l = [(p, path)])) ∧
    (∀ p, (st.heap.getO oid).proto = some p →
      (((recordProto st oid path).protos.lookup p).isSome : Prop)) := by
  unfold recordProto
  cases hp : (st.heap.getO oid).proto with
  | none =>
    refine ⟨rfl, rfl, rfl, rfl, ⟨[], by simp, Or.inl rfl⟩, ?_⟩
    intro p hc
    cases hc
  | some p =>
    dsimp only
    by_cases hmem : (st.protos.lookup p).isSome
    · rw [if_pos hmem]
      refine ⟨rfl, rfl, rfl, rfl, ⟨[], by simp, Or.inl rfl⟩, ?_⟩
      intro q hq
      cases hq
      exact hmem
    · rw [if_neg hmem]
      refine ⟨rfl, rfl, rfl, rfl, ⟨[(p, path)], rfl, Or.inr ⟨p, rfl, rfl⟩⟩, ?_⟩
      intro q hq
      cases hq
      show ((st.protos ++ [(p, path)]).lookup p).isSome
      rw [lookup_append_nat]
      cases hcc : st.protos.lookup p with
      | none => simp [List.lookup]
      | some v => simp

theorem noExotic_iff (h : Heap) :
    noExotic h ↔ ∀ j, j < h.objs.length → (h.getO j).kind ≠ TypeKind.exotic := by
  constructor
  · intro hne j hj
    exact hne _ (Heap.getO_mem h j hj)
  · intro hAll o ho
    obtain ⟨j, hj, rfl⟩ := List.mem_iff_getElem.mp ho
    have he : h.getO j = h.objs[j] := by
      simp only [Heap.getO, List.getD, List.get?_eq_getElem?]
      rw [List.getElem?_eq_getElem hj]
      rfl
    rw [← he]
    exact hAll j hj

theorem allProtoNone_iff (h : Heap) :
    allProtoNone h ↔ ∀ j, j < h.objs.length → (h.getO j).proto = none := by
  constructor
  · intro hap j hj
    exact hap _ (Heap.getO_mem h j hj)
  · intro hAll o ho
    obtain ⟨j, hj, rfl⟩ := List.mem_iff_getElem.mp ho
    have he : h.getO j = h.objs[j] := by
      simp only [Heap.getO, List.getD, List.get?_eq_getElem?]
      rw [List.getElem?_eq_getElem hj]
      rfl
    rw [← he]
    exact hAll j hj

theorem protoSub_iff (h : Heap) (fp : Nat) :
    protoSub h fp ↔ ∀ j, j < h.objs.length →
      (h.getO j).proto = none ∨ (h.getO j).proto = some fp := by
  constructor
  · intro hap j hj
    exact hap _ (Heap.getO_mem h j hj)
  · intro hAll o ho
    obtain ⟨j, hj, rfl⟩ := List.mem_iff_getElem.mp ho
    have he : h.getO j = h.objs[j] := by
      simp only [Heap.getO, List.getD, List.get?_eq_getElem?]
      rw [List.getElem?_eq_getElem hj]
      rfl
    rw [← he]
    exact hAll j hj

/-! ### The `freezeAndTraverse` specification -/

theorem freezeAndTraverse_spec (cfg : Config) (st : HState) (oid : Nat)
    (hcfg : cfg.prepareHook = none) (hInv : StInv st)
    (hOid : oid < st.heap.objs.length)
    (hfp : cfg.funcProto < st.heap.objs.length) :
    TravFacts cfg.funcProto st oid (freezeAndTraverse cfg st oid) := by
  obtain ⟨hook, fp⟩ := cfg
  simp only at hcfg hfp ⊢
  subst hcfg
  have F := freezeWithOverride_spec fp st.heap st.toFreeze oid hOid hInv.bounded hfp
    hInv.wf
  set r := freezeWithOverride fp st.heap st.toFreeze oid with hr
  set st1 : HState := ⟨r.1, st.fringe, r.2, st.protos, st.paths,
    st.trace ++ [Event.hardenedNode oid, Event.linksRead oid (isHardenedB r.1 oid)]⟩
    with hst1
  set pa := getPath st.paths oid with hpa
  set st2 := recordProto st1 oid pa with hst2
  have hfat : freezeAndTraverse ⟨none, fp⟩ st oid =
      (st2.heap.getO oid).props.foldl
        (fun acc nd => thenDo acc (fun s => enqueueDesc pa nd.1 nd.2 s)) (none, st2) := rfl
  obtain ⟨Rheap, Rfringe, Rtf, Rtrace, ⟨l0, hl0, hl0c⟩, Rproto⟩ := recordProto_spec st1 oid pa
  rw [← hst2] at Rheap Rfringe Rtf Rtrace hl0 Rproto
  have hst2heap : st2.heap = r.1 := Rheap
  have hlen1 : r.1.objs.length = st.heap.objs.length + 2 * cdcObj (st.heap.getO oid) :=
    F.lenEq
  have E := enqueueDescFold_facts pa (st2.heap.getO oid).props st2
  rw [hfat]
  set res := (st2.heap.getO oid).props.foldl
    (fun acc nd => thenDo acc (fun s => enqueueDesc pa nd.1 nd.2 s)) (none, st2) with hres
  have hresheap : res.2.heap = r.1 := by rw [E.heapEq, hst2heap]
  have hresfringe : res.2.fringe = st.fringe := by rw [E.fringeEq, Rfringe]
  have hresprotos : res.2.protos = st2.protos := E.protosEq
  have hOid1 : oid < r.1.objs.length := by rw [hlen1]; omega
  have hgetoid : st2.heap.getO oid = r.1.getO oid := by rw [hst2heap]
  -- well-formedness of the post-rewrite heap, used to bound new work set entries
  have hwf1 : heapWF r.1 := F.wf
  have htgb : ∀ t ∈ propTargets (r.1.getO oid), t < r.1.objs.length := by
    intro t ht
    exact (objWF_getO hwf1 oid).2 t (propTargets_sub_objTargets ht)
  obtain ⟨fresh, hfr, hfrnd, hfrb⟩ := F.tfExt
  have hst2tf : st2.toFreeze = st.toFreeze ++ fresh := by
    rw [Rtf]
    show r.2 = st.toFreeze ++ fresh
    exact hfr
  constructor
  · exact hresfringe
  · rw [hresheap, hlen1]; omega
  · intro j hj hjlt
    rw [hresheap]
    exact F.stable j hj hjlt
  · have hcongr : isHardenedB res.2.heap oid = isHardenedB r.1 oid :=
      isHardenedB_congr (by rw [hresheap])
    rw [hcongr]
    exact F.hardened
  · rw [hresheap]
    exact F.kindEq
  · rw [hresheap]
    exact F.protoEq
  · obtain ⟨l, hl, hlc⟩ := E.tfExt
    refine ⟨fresh ++ l, ?_⟩
    rw [hl, hst2tf, List.append_assoc]
  · refine ⟨l0, ?_, ?_⟩
    · rw [hresprotos, hl0]
    · rcases hl0c with h | ⟨p, hp, hle⟩
      · exact Or.inl h
      · right
        refine ⟨p, pa, ?_, hle⟩
        rw [← F.protoEq]
        exact hp
  · rw [E.traceEq, Rtrace]
    show st.trace ++ [Event.hardenedNode oid, Event.linksRead oid (isHardenedB r.1 oid)] =
      st.trace ++ blockOf false oid
    rw [F.hardened]
    rfl
  · refine ⟨?_, ?_, ?_⟩
    · rw [hresheap]
      exact hwf1
    · apply E.nodup
      rw [hst2tf]
      rw [List.nodup_append]
      refine ⟨hInv.nodup, hfrnd, ?_⟩
      intro a ha hc
      have h1 := hInv.bounded a ha
      have h2 := (hfrb a hc).1
      omega
    · intro x hx
      rw [hresheap]
      obtain ⟨l, hl, hlc⟩ := E.tfExt
      rw [hl] at hx
      rcases List.mem_append.mp hx with hm | hm
      · rw [hst2tf] at hm
        rcases List.mem_append.mp hm with hm1 | hm1
        · have := hInv.bounded x hm1
          omega
        · exact (hfrb x hm1).2
      · obtain ⟨hfr2, nd, hnd, htg⟩ := hlc x hm
        have hnd2 : nd ∈ (r.1.getO oid).props := by
          rw [← hgetoid]
          exact hnd
        exact htgb x (mem_propTargets.mpr ⟨nd, hnd2, htg⟩)
  · rw [hresheap]
    exact F.measLe
  · exact E.errTypeof
  · intro hne
    have hne1 : noExotic r.1 := by
      rw [noExotic_iff]
      intro j hj
      by_cases hjo : j = oid
      · subst hjo
        rw [F.kindEq]
        exact getO_kind_ne_exotic hne j
      · rcases Nat.lt_or_ge j st.heap.objs.length with hlt | hge
        · rw [F.stable j hjo hlt]
          exact getO_kind_ne_exotic hne j
        · rw [(F.freshShape j hge hj).2.2]
          simp
    refine ⟨?_, ?_⟩
    · show noExotic res.2.heap
      rw [hresheap]
      exact hne1
    · refine E.noErr ?_
      rw [hst2heap]
      exact hne1
  · intro j hk
    rw [hresheap] at hk
    by_cases hjo : j = oid
    · subst hjo
      rw [← F.kindEq]
      exact hk
    · rcases Nat.lt_or_ge j st.heap.objs.length with hlt | hge
      · rw [← F.stable j hjo hlt]
        exact hk
      · rcases Nat.lt_or_ge j r.1.objs.length with hlt2 | hge2
        · rw [(F.freshShape j hge hlt2).2.2] at hk
          cases hk
        · rw [Heap.getO_oob r.1 j hge2] at hk
          simp [dummyObj] at hk
  · intro hap
    have hap1 : protoSub r.1 fp := by
      rw [protoSub_iff]
      intro j hj
      by_cases hjo : j = oid
      · subst hjo
        rw [F.protoEq]
        exact hap _ (Heap.getO_mem _ _ hOid)
      · rcases Nat.lt_or_ge j st.heap.objs.length with hlt | hge
        · rw [F.stable j hjo hlt]
          exact hap _ (Heap.getO_mem _ _ hlt)
        · exact Or.inr (F.freshShape j hge hj).2.1
    show protoSub res.2.heap fp
    rw [hresheap]
    exact hap1
  · intro hok
    refine ⟨?_, ?_⟩
    · intro t ht
      rw [hresheap] at ht
      obtain ⟨nd, hnd, htd⟩ := mem_propTargets.mp ht
      have hcov := E.covered hok nd (by rw [hgetoid]; exact hnd) t htd
      rcases hcov with h1 | h1
      · left
        rw [Rfringe] at h1
        exact h1
      · exact Or.inr h1
    · intro p hp
      rw [hresprotos]
      apply Rproto
      rw [hresheap] at hp
      exact hp

/-! ### The `dequeue` fixpoint -/

theorem le_measureM (h : Heap) : h.objs.length ≤ measureM h :=
  Nat.le_add_right _ _

theorem nodup_bounded_length {l : List Nat} {n : Nat} (h : l.Nodup)
    (hb : ∀ x ∈ l, x < n) : l.length ≤ n := by
  classical
  have hsub : l.toFinset ⊆ Finset.range n := by
    intro x hx
    exact Finset.mem_range.mpr (hb x (List.mem_toFinset.mp hx))
  have hcard := Finset.card_le_card hsub
  rwa [List.toFinset_card_of_nodup h, Finset.card_range] at hcard

theorem lookup_isSome_append {l1 l2 : List (Nat × String)} {p : Nat}
    (h : (l1.lookup p).isSome) : ((l1 ++ l2).lookup p).isSome := by
  rw [lookup_append_nat]
  cases hc : l1.lookup p with
  | none => rw [hc] at h; cases h
  | some v => simp

theorem processedOid_mono {st st2 : HState} {oid : Nat}
    (hheap : st2.heap.getO oid = st.heap.getO oid)
    (hfr : st2.fringe = st.fringe)
    (htf : ∃ l, st2.toFreeze = st.toFreeze ++ l)
    (hpr : ∃ l, st2.protos = st.protos ++ l)
    (hp : processedOid st oid) : processedOid st2 oid := by
  obtain ⟨l, hl⟩ := htf
  obtain ⟨l2, hl2⟩ := hpr
  refine ⟨?_, ?_, ?_⟩
  · rw [isHardenedB_congr hheap]
    exact hp.1
  · intro t ht
    rw [hheap] at ht
    rcases hp.2.1 t ht with h1 | h1
    · left
      rw [hfr]
      exact h1
    · right
      rw [hl]
      exact List.mem_append.mpr (Or.inl h1)
  · intro p hpp
    rw [hheap] at hpp
    rw [hl2]
    exact lookup_isSome_append (hp.2.2 p hpp)

/-- The master induction over the `dequeue` fixpoint (hookless). -/
theorem dequeueLoop_spec (cfg : Config) (hcfg : cfg.prepareHook = none) :
    ∀ (fuel i : Nat) (st : HState), StInv st → i ≤ st.toFreeze.length →
      measureM st.heap + 1 ≤ fuel + i →
      cfg.funcProto < st.heap.objs.length →
      (∀ oid ∈ st.toFreeze.take i, processedOid st oid) →
      LoopFacts cfg.funcProto st i (dequeueLoop cfg fuel i st) := by
  intro fuel
  induction fuel with
  | zero =>
    intro i st hInv hile hfuel hfp hProc
    exfalso
    have h1 : st.toFreeze.length ≤ st.heap.objs.length :=
      nodup_bounded_length hInv.nodup hInv.bounded
    have h2 := le_measureM st.heap
    omega
  | succ fuel ih =>
    intro i st hInv hile hfuel hfp hProc
    by_cases hlt : i < st.toFreeze.length
    · have hred : dequeueLoop cfg (fuel + 1) i st =
          match freezeAndTraverse cfg st (st.toFreeze.get ⟨i, hlt⟩) with
          | (some e, st1) => (some e, st1)
          | (none, st1) => dequeueLoop cfg fuel (i + 1) st1 := by
        rw [dequeueLoop]
        rw [dif_pos hlt]
      set oid := st.toFreeze.get ⟨i, hlt⟩ with hoid
      have hOidLt : oid < st.heap.objs.length :=
        hInv.bounded oid (st.toFreeze.get_mem _ _)
      have T := freezeAndTraverse_spec cfg st oid hcfg hInv hOidLt hfp
      rw [hred]
      rcases hcase : freezeAndTraverse cfg st oid with ⟨e1, st1⟩
      rw [hcase] at T
      rcases e1 with _ | e1
      · -- visit succeeded: recurse
        obtain ⟨ltf, hltf⟩ := T.tfExt
        obtain ⟨lpr, hlpr, hlprc⟩ := T.protosExt
        have hlen1 : i + 1 ≤ st1.toFreeze.length := by
          rw [hltf, List.length_append]
          omega
        have hfuel1 : measureM st1.heap + 1 ≤ fuel + (i + 1) := by
          have hml : measureM st1.heap ≤ measureM st.heap := T.measLe
          omega
        have htake : st1.toFreeze.take (i + 1) = st.toFreeze.take i ++ [oid] := by
          rw [hltf, List.take_append_of_le_length (by omega), List.take_succ]
          congr 1
          rw [List.getElem?_eq_getElem hlt]
          rfl
        have hProc1 : ∀ o ∈ st1.toFreeze.take (i + 1), processedOid st1 o := by
          intro o ho
          rw [htake] at ho
          rcases List.mem_append.mp ho with hm | hm
          · -- an earlier node: stable under this visit
            obtain ⟨j, hj, hje⟩ := List.mem_iff_getElem.mp hm
            have hjlt : j < i := by
              have := List.length_take_le i st.toFreeze
              have h2 : j < (st.toFreeze.take i).length := hj
              rw [List.length_take] at h2
              omega
            have hjtf : j < st.toFreeze.length := by omega
            have hgetj : (st.toFreeze.take i)[j] = st.toFreeze[j] := by
              rw [List.getElem_take]
            have hone : o ≠ oid := by
              intro hc
              have heq : st.toFreeze[j] = st.toFreeze[i] := by
                rw [← hgetj, hje, hc, hoid]
                rfl
              have := (List.Nodup.getElem_inj_iff hInv.nodup).mp heq
              omega
            have holt : o < st.heap.objs.length := by
              refine hInv.bounded o ?_
              exact List.mem_of_mem_take hm
            refine processedOid_mono ?_ T.fringeEq ⟨ltf, hltf⟩ ⟨lpr, hlpr⟩ ?_
            · exact T.stable o hone holt
            · refine hProc o hm
          · -- the node just visited
            have ho2 : o = oid := by simpa using hm
            subst ho2
            obtain ⟨hcov, hproto⟩ := T.processed rfl
            refine ⟨T.hardened, ?_, hproto⟩
            intro t ht
            rcases hcov t ht with h1 | h1
            · left
              rw [T.fringeEq]
              exact h1
            · exact Or.inr h1
        have hfp1 : cfg.funcProto < st1.heap.objs.length := by
          have hlg : st.heap.objs.length ≤ st1.heap.objs.length := T.lenGe
          omega
        have IH := ih (i + 1) st1 T.inv hlen1 hfuel1 hfp1 hProc1
        refine ⟨IH.inv, IH.fringeEq.trans T.fringeEq, ?_, ?_, ?_,
          IH.errKind, IH.procAll, ?_, ?_, ?_, ?_, IH.measLe.trans T.measLe⟩
        · obtain ⟨l2, hl2⟩ := IH.tfExt
          exact ⟨ltf ++ l2, by rw [hl2, hltf, List.append_assoc]⟩
        · obtain ⟨l2, hl2⟩ := IH.protosExt
          exact ⟨lpr ++ l2, by rw [hl2, hlpr, List.append_assoc]⟩
        · exact le_trans T.lenGe IH.lenGe
        · intro hne
          obtain ⟨h1, _⟩ := T.noExoticPres hne
          exact IH.noExoticPres h1
        · intro j hk
          exact T.exoticMono j (IH.exoticMono j hk)
        · intro hap
          have h1 := T.protoSubPres hap
          obtain ⟨h3, h4⟩ := IH.protoSubPres h1
          refine ⟨h3, ?_⟩
          intro pp hpp
          rcases h4 pp hpp with h5 | h5
          · obtain ⟨lpr2, hlpr2, hlprc2⟩ := T.protosExt
            rw [hlpr2] at h5
            rcases List.mem_append.mp h5 with h6 | h6
            · exact Or.inl h6
            · rcases hlprc2 with h7 | ⟨p, pa2, hp7, hl7⟩
              · rw [h7] at h6
                cases h6
              · rw [hl7] at h6
                have hpp2 : pp = (p, pa2) := by simpa using h6
                rcases hap _ (Heap.getO_mem _ _ hOidLt) with h8 | h8
                · rw [hp7] at h8
                  cases h8
                · rw [hp7] at h8
                  right
                  rw [hpp2]
                  exact Option.some.inj h8
          · exact Or.inr h5
        · intro hok
          have htr := IH.traceFlat hok
          have htr1 : st1.trace = st.trace ++ blockOf false oid := T.traceEq
          rw [htr, htr1]
          obtain ⟨l2, hl2⟩ := IH.tfExt
          have hltf1 : st1.toFreeze = st.toFreeze ++ ltf := hltf
          have hitot : i < (dequeueLoop cfg fuel (i + 1) st1).2.toFreeze.length := by
            rw [hl2, hltf1, List.length_append, List.length_append]
            omega
          have hgetq : (dequeueLoop cfg fuel (i + 1) st1).2.toFreeze[i]? = some oid := by
            rw [hl2, hltf1, List.append_assoc, List.getElem?_append]
            rw [if_pos hlt, List.getElem?_eq_getElem hlt]
            rfl
          have hgeti : (dequeueLoop cfg fuel (i + 1) st1).2.toFreeze[i] = oid := by
            have h2 := List.getElem?_eq_getElem hitot
            rw [h2] at hgetq
            exact Option.some.inj hgetq
          rw [List.drop_eq_getElem_cons hitot, hgeti]
          rw [List.flatMap_cons, List.append_assoc]
      · -- visit failed: stop with its error
        refine ⟨T.inv, T.fringeEq, T.tfExt, ?_, T.lenGe, ?_, ?_, ?_,
          T.exoticMono, ?_, ?_, T.measLe⟩
        · obtain ⟨lpr, hlpr, _⟩ := T.protosExt
          exact ⟨lpr, hlpr⟩
        · rcases T.errTypeof with h | ⟨m, hme⟩
          · cases h
          · exact Or.inr ⟨m, hme⟩
        · intro hok
          cases hok
        · intro hne
          obtain ⟨h1, h2⟩ := T.noExoticPres hne
          cases h2
        · intro hap
          refine ⟨T.protoSubPres hap, ?_⟩
          intro pp hpp
          obtain ⟨lpr2, hlpr2, hlprc2⟩ := T.protosExt
          rw [hlpr2] at hpp
          rcases List.mem_append.mp hpp with h6 | h6
          · exact Or.inl h6
          · rcases hlprc2 with h7 | ⟨p, pa2, hp7, hl7⟩
            · rw [h7] at h6
              cases h6
            · rw [hl7] at h6
              have hpp2 : pp = (p, pa2) := by simpa using h6
              rcases hap _ (Heap.getO_mem _ _ hOidLt) with h8 | h8
              · rw [hp7] at h8
                cases h8
              · rw [hp7] at h8
                right
                rw [hpp2]
                exact Option.some.inj h8
        · intro hok
          cases hok
    · have hred : dequeueLoop cfg (fuel + 1) i st = (none, st) := by
        rw [dequeueLoop]
        rw [dif_neg hlt]
      rw [hred]
      have htake : st.toFreeze.take i = st.toFreeze :=
        List.take_of_length_le (by omega)
      refine ⟨hInv, rfl, ⟨[], by simp⟩, ⟨[], by simp⟩, le_refl _,
        Or.inl rfl, ?_, fun hne => ⟨hne, rfl⟩, fun j hk => hk,
        fun hap => ⟨hap, fun pp hpp => Or.inl hpp⟩, ?_, le_refl _⟩
      · intro _ o ho
        refine hProc o ?_
        rw [htake]
        exact ho
      · intro _
        show st.trace = st.trace ++ (st.toFreeze.drop i).flatMap (blockOf false)
        rw [List.drop_eq_nil_of_le (by omega)]
        simp

/-! ### The prototype-completeness check and the committer -/

theorem lookup_isSome_mem {l : List (Nat × String)} {p : Nat}
    (h : (l.lookup p).isSome) : ∃ pa, (p, pa) ∈ l := by
  induction l with
  | nil => simp [List.lookup] at h
  | cons nd t ih =>
    obtain ⟨q, s⟩ := nd
    by_cases hpq : p = q
    · subst hpq
      exact ⟨s, List.mem_cons_self _ _⟩
    · have hb : (p == q) = false := beq_false_of_ne hpq
      simp only [List.lookup, hb] at h
      obtain ⟨pa, hpa⟩ := ih h
      exact ⟨pa, List.mem_cons_of_mem _ hpa⟩

theorem checkProtosList_none_iff (h : Heap) (fringe tf : List Nat)
    (protos : List (Nat × String)) :
    checkProtosList h fringe tf protos = none ↔
      ∀ pp ∈ protos, pp.1 ∈ tf ∨ pp.1 ∈ fringe := by
  induction protos with
  | nil => simp [checkProtosList]
  | cons pp rest ih =>
    obtain ⟨p, pa⟩ := pp
    by_cases hc : (tf.contains p || fringe.contains p) = true
    · rw [checkProtosList, if_pos hc, ih]
      have hmem : p ∈ tf ∨ p ∈ fringe := by simpa using hc
      constructor
      · intro hall q hq
        rcases List.mem_cons.mp hq with h1 | h1
        · rw [h1]
          exact hmem
        · exact hall q h1
      · intro hall q hq
        exact hall q (List.mem_cons_of_mem _ hq)
    · rw [checkProtosList, if_neg hc]
      constructor
      · intro hh
        simp at hh
      · intro hall
        exfalso
        have hm := hall (p, pa) (List.mem_cons_self _ _)
        simp only at hm
        rcases hm with h1 | h1
        · exact hc (by simp [h1])
        · exact hc (by simp [h1])

theorem checkProtosList_some_shape (h : Heap) (fringe tf : List Nat)
    (protos : List (Nat × String)) (e : JsError)
    (he : checkProtosList h fringe tf protos = some e) :
    ∃ q qa, (q, qa) ∈ protos ∧ q ∉ tf ∧ q ∉ fringe ∧
      e = JsError.unreachableProto (protoFailMsg h q qa) := by
  induction protos with
  | nil => simp [checkProtosList] at he
  | cons pp rest ih =>
    obtain ⟨p, pa⟩ := pp
    by_cases hc : (tf.contains p || fringe.contains p) = true
    · rw [checkProtosList, if_pos hc] at he
      obtain ⟨q, qa, h1, h2, h3, h4⟩ := ih he
      exact ⟨q, qa, List.mem_cons_of_mem _ h1, h2, h3, h4⟩
    · rw [checkProtosList, if_neg hc] at he
      refine ⟨p, pa, List.mem_cons_self _ _, ?_, ?_, (Option.some.inj he).symm⟩
      · intro hm
        exact hc (by simp [hm])
      · intro hm
        exact hc (by simp [hm])

/-! ### Fringe frame facts: only `commit` ever touches the fringe -/

theorem freezeAndTraverse_hook (f : Heap → Nat → Heap) (fp : Nat)
    (st : HState) (oid : Nat) :
    freezeAndTraverse ⟨some f, fp⟩ st oid =
      freezeAndTraverse ⟨none, fp⟩
        { st with heap := f st.heap oid,
                  trace := st.trace ++ [Event.prepared oid] } oid := rfl

theorem freezeAndTraverse_fringe_none (fp : Nat) (st : HState) (oid : Nat) :
    (freezeAndTraverse ⟨none, fp⟩ st oid).2.fringe = st.fringe := by
  set r := freezeWithOverride fp st.heap st.toFreeze oid with hr
  set st1 : HState := ⟨r.1, st.fringe, r.2, st.protos, st.paths,
    st.trace ++ [Event.hardenedNode oid, Event.linksRead oid (isHardenedB r.1 oid)]⟩
    with hst1
  set pa := getPath st.paths oid with hpa
  set st2 := recordProto st1 oid pa with hst2
  have hfat : freezeAndTraverse ⟨none, fp⟩ st oid =
      (st2.heap.getO oid).props.foldl
        (fun acc nd => thenDo acc (fun s => enqueueDesc pa nd.1 nd.2 s))
        (none, st2) := rfl
  rw [hfat]
  have E := enqueueDescFold_facts pa (st2.heap.getO oid).props st2
  rw [E.fringeEq]
  obtain ⟨Rheap, Rfringe, Rtf, Rtrace, hpe, Rproto⟩ := recordProto_spec st1 oid pa
  rw [← hst2] at Rfringe
  exact Rfringe

theorem freezeAndTraverse_fringe (cfg : Config) (st : HState) (oid : Nat) :
    (freezeAndTraverse cfg st oid).2.fringe = st.fringe := by
  obtain ⟨hook, fp⟩ := cfg
  cases hook with
  | none => exact freezeAndTraverse_fringe_none fp st oid
  | some f =>
    rw [freezeAndTraverse_hook]
    exact freezeAndTraverse_fringe_none fp _ oid

theorem dequeueLoop_fringe (cfg : Config) :
    ∀ (fuel i : Nat) (st : HState),
      (dequeueLoop cfg fuel i st).2.fringe = st.fringe := by
  intro fuel
  induction fuel with
  | zero =>
    intro i st
    rfl
  | succ fuel ih =>
    intro i st
    by_cases hlt : i < st.toFreeze.length
    · rw [dequeueLoop, dif_pos hlt]
      rcases hft : freezeAndTraverse cfg st (st.toFreeze.get ⟨i, hlt⟩) with ⟨e1, st1⟩
      have hfr : st1.fringe = st.fringe := by
        have hq := freezeAndTraverse_fringe cfg st (st.toFreeze.get ⟨i, hlt⟩)
        rw [hft] at hq
        exact hq
      cases e1 with
      | some e =>
        dsimp only
        exact hfr
      | none =>
        dsimp only
        rw [ih (i + 1) st1]
        exact hfr
    · rw [dequeueLoop, dif_neg hlt]

/-! ### Characterising a whole `harden` call -/

theorem harden_eq_enqueue_err (cfg : Config) (h0 : Heap) (fr0 : List Nat)
    (root : Value) (e : JsError) (st : HState)
    (he : enqueue ⟨h0, fr0, [], [], [], []⟩ root none = (some e, st)) :
    harden cfg h0 fr0 root = ⟨some e, st, Value.undef⟩ := by
  simp only [harden]
  rw [he]

theorem harden_eq_loop (cfg : Config) (h0 : Heap) (fr0 : List Nat)
    (root : Value) (st1 : HState)
    (he : enqueue ⟨h0, fr0, [], [], [], []⟩ root none = (none, st1)) :
    harden cfg h0 fr0 root =
      (match dequeueLoop cfg (fuelOf h0) 0 st1 with
       | (some e, st2) => (⟨some e, st2, Value.undef⟩ : Outcome)
       | (none, st2) =>
         match checkProtosList st2.heap st2.fringe st2.toFreeze st2.protos with
         | some e => ⟨some e, st2, Value.undef⟩
         | none => ⟨none, commit st2, root⟩) := by
  simp only [harden]
  rw [he]

theorem enqueue_ok_kind (st : HState) (r : Nat) (p : Option String)
    (hok : (enqueue st (Value.ref r) p).1 = none) :
    (st.heap.getO r).kind ≠ TypeKind.exotic := by
  intro hk
  simp only [enqueue] at hok
  rw [hk] at hok
  simp at hok

theorem enqueue_stInv (st : HState) (v : Value) (p : Option String)
    (hInv : StInv st) (hv : valueWF st.heap v) :
    StInv (enqueue st v p).2 := by
  have hF := enqueue_frame st v p
  rcases enqueue_toFreeze st v p with h1 | ⟨oid, hv1, h2, h3, h4⟩
  · refine ⟨?_, ?_, ?_⟩
    · rw [hF.1]
      exact hInv.wf
    · rw [h1]
      exact hInv.nodup
    · intro x hx
      rw [h1] at hx
      rw [hF.1]
      exact hInv.bounded x hx
  · have hoidlt : oid < st.heap.objs.length := by
      have hq := hv oid
      rw [hv1] at hq
      exact hq (by simp [valueTargets])
    refine ⟨?_, ?_, ?_⟩
    · rw [hF.1]
      exact hInv.wf
    · rw [h4]
      simpa [List.nodup_append] using ⟨hInv.nodup, h2⟩
    · intro x hx
      rw [h4] at hx
      rw [hF.1]
      rcases List.mem_append.mp hx with hx1 | hx1
      · exact hInv.bounded x hx1
      · rw [List.mem_singleton.mp hx1]
        exact hoidlt

/-- Full characterisation of one hookless `harden` call on a well-formed
heap: the shape of every possible error, atomicity of the fringe on
failure, and the success facts — invariants, identity of the returned
value, the committed fringe, processing of the whole work set, root
coverage, prototype-registry coverage and the event trace. -/
theorem harden_spec (cfg : Config) (hcfg : cfg.prepareHook = none)
    (h0 : Heap) (fr0 : List Nat) (root : Value)
    (hWF : heapWF h0) (hroot : valueWF h0 root)
    (hfp : cfg.funcProto < h0.objs.length) :
    HardenFacts cfg.funcProto h0 fr0 root (harden cfg h0 fr0 root) := by
  have hInv0 : StInv (⟨h0, fr0, [], [], [], []⟩ : HState) :=
    ⟨hWF, List.nodup_nil, by simp⟩
  rcases he : enqueue ⟨h0, fr0, [], [], [], []⟩ root none with ⟨e0, stA⟩
  have hF := enqueue_frame ⟨h0, fr0, [], [], [], []⟩ root none
  rw [he] at hF
  have hAheap : stA.heap = h0 := hF.1
  have hAfr : stA.fringe = fr0 := hF.2.1
  have hApr : stA.protos = [] := hF.2.2.1
  have hAtr : stA.trace = [] := hF.2.2.2
  have hInvA : StInv stA := by
    have hq := enqueue_stInv ⟨h0, fr0, [], [], [], []⟩ root none hInv0 hroot
    rw [he] at hq
    exact hq
  cases e0 with
  | some e =>
    rw [harden_eq_enqueue_err cfg h0 fr0 root e stA he]
    have hec := enqueue_err_cases ⟨h0, fr0, [], [], [], []⟩ root none
    rw [he] at hec
    dsimp only at hec
    rcases hec with hec | ⟨hm, hstA⟩
    · simp at hec
    · have hme : e = JsError.unexpectedTypeof "Unexpected typeof: exotic" :=
        Option.some.inj hm
      refine ⟨?_, ?_, ?_, ?_, ?_, ?_, ?_, ?_, ?_, ?_, ?_, ?_, ?_⟩
      · exact Or.inr (Or.inl ⟨_, by rw [hme]⟩)
      · intro _
        exact hAfr
      · exact hInvA
      · intro hb
        exact absurd hb (by simp)
      · intro hb
        exact absurd hb (by simp)
      · intro hb
        exact absurd hb (by simp)
      · intro hb
        exact absurd hb (by simp)
      · intro hb
        exact absurd hb (by simp)
      · intro hb
        exact absurd hb (by simp)
      · intro hb
        exact absurd hb (by simp)
      · intro j hj
        rw [hAheap] at hj
        exact hj
      · intro hne
        exfalso
        have hno := enqueue_no_err ⟨h0, fr0, [], [], [], []⟩ root none hne
        rw [he] at hno
        simp at hno
      · intro hne _ _
        exfalso
        have hno := enqueue_no_err ⟨h0, fr0, [], [], [], []⟩ root none hne
        rw [he] at hno
        simp at hno
  | none =>
    rw [harden_eq_loop cfg h0 fr0 root stA he]
    have hfuel : measureM stA.heap + 1 ≤ fuelOf h0 + 0 := by
      rw [hAheap]
      simp [fuelOf]
    have L := dequeueLoop_spec cfg hcfg (fuelOf h0) 0 stA hInvA (by omega) hfuel
      (by rw [hAheap]; exact hfp) (by simp)
    rcases hl : dequeueLoop cfg (fuelOf h0) 0 stA with ⟨e1, stB⟩
    rw [hl] at L
    have hBfr : stB.fringe = stA.fringe := L.fringeEq
    have hBinv : StInv stB := L.inv
    obtain ⟨ltf, hltf⟩ : ∃ l, stB.toFreeze = stA.toFreeze ++ l := L.tfExt
    have hexB : ∀ j, (stB.heap.getO j).kind = TypeKind.exotic →
        (stA.heap.getO j).kind = TypeKind.exotic := L.exoticMono
    cases e1 with
    | some e =>
      dsimp only
      have hek : (some e : Option JsError) = none ∨
          ∃ m, (some e : Option JsError) = some (JsError.unexpectedTypeof m) :=
        L.errKind
      rcases hek with hek | ⟨m, hm⟩
      · simp at hek
      · refine ⟨?_, ?_, ?_, ?_, ?_, ?_, ?_, ?_, ?_, ?_, ?_, ?_, ?_⟩
        · exact Or.inr (Or.inl ⟨m, hm⟩)
        · intro _
          rw [hBfr, hAfr]
        · exact hBinv
        · intro hb
          exact absurd hb (by simp)
        · intro hb
          exact absurd hb (by simp)
        · intro hb
          exact absurd hb (by simp)
        · intro hb
          exact absurd hb (by simp)
        · intro hb
          exact absurd hb (by simp)
        · intro hb
          exact absurd hb (by simp)
        · intro hb
          exact absurd hb (by simp)
        · intro j hj
          have hq := hexB j hj
          rwa [hAheap] at hq
        · intro hne
          exfalso
          have hq := L.noExoticPres (by rw [hAheap]; exact hne)
          have hq2 : (some e : Option JsError) = none := hq.2
          simp at hq2
        · intro hne _ _
          exfalso
          have hq := L.noExoticPres (by rw [hAheap]; exact hne)
          have hq2 : (some e : Option JsError) = none := hq.2
          simp at hq2
    | none =>
      dsimp only
      have hproc : ∀ oid ∈ stB.toFreeze, processedOid stB oid := L.procAll rfl
      have htr : stB.trace =
          stA.trace ++ (stB.toFreeze.drop 0).flatMap (blockOf false) :=
        L.traceFlat rfl
      cases hc : checkProtosList stB.heap stB.fringe stB.toFreeze stB.protos with
      | some e =>
        dsimp only
        obtain ⟨q, qa, hq1, hq2, hq3, hq4⟩ :=
          checkProtosList_some_shape _ _ _ _ e hc
        refine ⟨?_, ?_, ?_, ?_, ?_, ?_, ?_, ?_, ?_, ?_, ?_, ?_, ?_⟩
        · exact Or.inr (Or.inr ⟨_, by rw [hq4]⟩)
        · intro _
          rw [hBfr, hAfr]
        · exact hBinv
        · intro hb
          exact absurd hb (by simp)
        · intro hb
          exact absurd hb (by simp)
        · intro hb
          exact absurd hb (by simp)
        · intro hb
          exact absurd hb (by simp)
        · intro hb
          exact absurd hb (by simp)
        · intro hb
          exact absurd hb (by simp)
        · intro hb
          exact absurd hb (by simp)
        · intro j hj
          have hq := hexB j hj
          rwa [hAheap] at hq
        · intro _
          exact Or.inr ⟨_, by rw [hq4]⟩
        · intro hne hps hmem
          exfalso
          have hq := L.protoSubPres (by rw [hAheap]; exact hps)
          have hnone : checkProtosList stB.heap stB.fringe stB.toFreeze
              stB.protos = none := by
            rw [checkProtosList_none_iff]
            intro pp hpp
            right
            rcases hq.2 pp hpp with h1 | h1
            · rw [hApr] at h1
              cases h1
            · rw [h1, hBfr, hAfr]
              exact hmem
          rw [hc] at hnone
          cases hnone
      | none =>
        dsimp only
        refine ⟨?_, ?_, ?_, ?_, ?_, ?_, ?_, ?_, ?_, ?_, ?_, ?_, ?_⟩
        · exact Or.inl rfl
        · intro hb
          exact absurd rfl hb
        · exact ⟨hBinv.wf, hBinv.nodup, hBinv.bounded⟩
        · intro _
          rfl
        · intro _ x
          show x ∈ stB.toFreeze.foldl setAdd stB.fringe ↔
            x ∈ fr0 ∨ x ∈ stB.toFreeze
          rw [mem_foldl_setAdd, hBfr, hAfr]
        · intro _ oid hoid
          have hp := hproc oid hoid
          refine ⟨hp.1, ?_, hp.2.2⟩
          intro t ht
          rcases hp.2.1 t ht with h1 | h1
          · left
            show t ∈ stB.toFreeze.foldl setAdd stB.fringe
            rw [mem_foldl_setAdd]
            exact Or.inl h1
          · right
            exact h1
        · intro _ r hrr
          have hok : (enqueue ⟨h0, fr0, [], [], [], []⟩ (Value.ref r) none).1 =
              none := by
            rw [← hrr, he]
          have hmem := enqueue_ok_ref_mem ⟨h0, fr0, [], [], [], []⟩ r none hok
          rw [← hrr, he] at hmem
          dsimp only at hmem
          rcases hmem with h1 | h1
          · exact Or.inl h1
          · right
            show r ∈ stB.toFreeze
            rw [hltf]
            exact List.mem_append.mpr (Or.inl h1)
        · intro _ pp hpp
          have hcov := (checkProtosList_none_iff stB.heap stB.fringe
            stB.toFreeze stB.protos).mp hc pp hpp
          rcases hcov with h1 | h1
          · exact Or.inl h1
          · right
            rw [hBfr, hAfr] at h1
            exact h1
        · intro _
          show stB.trace = stB.toFreeze.flatMap (blockOf false)
          rw [htr, hAtr, List.drop_zero]
          simp
        · intro _ r hrr
          have hok : (enqueue ⟨h0, fr0, [], [], [], []⟩ (Value.ref r) none).1 =
              none := by
            rw [← hrr, he]
          exact enqueue_ok_kind ⟨h0, fr0, [], [], [], []⟩ r none hok
        · intro j hj
          have hq := hexB j hj
          rwa [hAheap] at hq
        · intro _
          exact Or.inl rfl
        · intro hne hps hmem
          refine ⟨rfl, ?_⟩
          intro pp hpp
          have hq := L.protoSubPres (by rw [hAheap]; exact hps)
          rcases hq.2 pp hpp with h1 | h1
          · rw [hApr] at h1
            cases h1
          · exact h1

/-- A `harden` call whose root is primitive, `undefined`, or an object
already in the fringe does nothing: the walker ignores the root, the
fixpoint visits nothing, the prototype registry stays empty, and `commit`
folds an empty work set into the fringe. -/
theorem harden_noop (cfg : Config) (h : Heap) (fr : List Nat) (v : Value)
    (hv : ∀ r, v = Value.ref r → r ∈ fr ∧ (h.getO r).kind ≠ TypeKind.exotic) :
    harden cfg h fr v = ⟨none, ⟨h, fr, [], [], [], []⟩, v⟩ := by
  have he : enqueue ⟨h, fr, [], [], [], []⟩ v none =
      (none, ⟨h, fr, [], [], [], []⟩) := by
    cases v with
    | undef => rfl
    | prim n => rfl
    | ref r =>
      obtain ⟨hrf, hrk⟩ := hv r rfl
      have hcon : (fr.contains r || ([] : List Nat).contains r) = true := by
        simpa using hrf
      simp only [enqueue]
      cases hk : (h.getO r).kind with
      | exotic => exact absurd hk hrk
      | obj => rw [if_pos hcon]
      | func => rw [if_pos hcon]
  rw [harden_eq_loop cfg h fr v ⟨h, fr, [], [], [], []⟩ he]
  have hloop : dequeueLoop cfg (fuelOf h) 0 (⟨h, fr, [], [], [], []⟩ : HState) =
      (none, ⟨h, fr, [], [], [], []⟩) := by
    rw [show fuelOf h = measureM h + 1 from rfl]
    rw [dequeueLoop]
    rw [dif_neg (by simp)]
  rw [hloop]
  rfl

/-! ### The fixpoint with a configured prepare hook -/

theorem freezeAndTraverseH_spec (f : Heap → Nat → Heap) (fp : Nat)
    (hHook : ∀ h oid, heapWF h →
      heapWF (f h oid) ∧ h.objs.length ≤ (f h oid).objs.length)
    (st : HState) (oid : Nat) (hInv : StInv st)
    (hOid : oid < st.heap.objs.length)
    (hfp : fp < st.heap.objs.length) :
    StInv (freezeAndTraverse ⟨some f, fp⟩ st oid).2 ∧
    (freezeAndTraverse ⟨some f, fp⟩ st oid).2.fringe = st.fringe ∧
    (∃ l, (freezeAndTraverse ⟨some f, fp⟩ st oid).2.toFreeze = st.toFreeze ++ l) ∧
    st.heap.objs.length ≤ (freezeAndTraverse ⟨some f, fp⟩ st oid).2.heap.objs.length ∧
    ((freezeAndTraverse ⟨some f, fp⟩ st oid).1 = none →
      (freezeAndTraverse ⟨some f, fp⟩ st oid).2.trace =
        st.trace ++ blockOf true oid) := by
  have hb := hHook st.heap oid hInv.wf
  set st2 : HState := { st with heap := f st.heap oid,
                                trace := st.trace ++ [Event.prepared oid] }
    with hst2
  have hInv2 : StInv st2 := by
    refine ⟨hb.1, hInv.nodup, ?_⟩
    intro x hx
    have hx1 := hInv.bounded x hx
    show x < (f st.heap oid).objs.length
    omega
  have hOid2 : oid < st2.heap.objs.length := by
    show oid < (f st.heap oid).objs.length
    omega
  have T := freezeAndTraverse_spec ⟨none, fp⟩ st2 oid rfl hInv2 hOid2
    (by show fp < (f st.heap oid).objs.length; omega)
  rw [freezeAndTraverse_hook, ← hst2]
  refine ⟨T.inv, ?_, ?_, ?_, ?_⟩
  · rw [T.fringeEq]
  · obtain ⟨l, hl⟩ := T.tfExt
    exact ⟨l, hl⟩
  · have hlg : st2.heap.objs.length ≤
        (freezeAndTraverse ⟨none, fp⟩ st2 oid).2.heap.objs.length := T.lenGe
    have hlg2 : st.heap.objs.length ≤ st2.heap.objs.length := by
      show st.heap.objs.length ≤ (f st.heap oid).objs.length
      omega
    omega
  · intro hnone
    rw [T.traceEq]
    show (st.trace ++ [Event.prepared oid]) ++ blockOf false oid =
      st.trace ++ blockOf true oid
    rw [List.append_assoc]
    rfl

/-- The master induction over the `dequeue` fixpoint when a prepare hook
is configured: a hook that keeps the heap well-formed preserves the run
invariants, never touches the fringe, only grows the work set, and on
success leaves a trace of exactly one hook-first block per visited
node. -/
theorem dequeueLoopH_spec (f : Heap → Nat → Heap) (fp : Nat)
    (hHook : ∀ h oid, heapWF h →
      heapWF (f h oid) ∧ h.objs.length ≤ (f h oid).objs.length) :
    ∀ (fuel i : Nat) (st : HState), StInv st → fp < st.heap.objs.length →
      LoopFactsH st i (dequeueLoop ⟨some f, fp⟩ fuel i st) := by
  intro fuel
  induction fuel with
  | zero =>
    intro i st hInv hfp
    refine ⟨hInv, rfl, ⟨[], by simp [dequeueLoop]⟩, ?_⟩
    intro hbad
    simp [dequeueLoop] at hbad
  | succ fuel ih =>
    intro i st hInv hfp
    by_cases hlt : i < st.toFreeze.length
    · have hred : dequeueLoop ⟨some f, fp⟩ (fuel + 1) i st =
          match freezeAndTraverse ⟨some f, fp⟩ st (st.toFreeze.get ⟨i, hlt⟩) with
          | (some e, st1) => (some e, st1)
          | (none, st1) => dequeueLoop ⟨some f, fp⟩ fuel (i + 1) st1 := by
        rw [dequeueLoop]
        rw [dif_pos hlt]
      set oid := st.toFreeze.get ⟨i, hlt⟩ with hoid
      have hOidLt : oid < st.heap.objs.length :=
        hInv.bounded oid (st.toFreeze.get_mem _ _)
      have T := freezeAndTraverseH_spec f fp hHook st oid hInv hOidLt hfp
      rw [hred]
      rcases hcase : freezeAndTraverse ⟨some f, fp⟩ st oid with ⟨e1, st1⟩
      rw [hcase] at T
      obtain ⟨Tinv, Tfr, ⟨l1, hl1⟩, Tlg, Ttr⟩ := T
      rcases e1 with _ | e1
      · have IH := ih (i + 1) st1 Tinv (by
          have hlg : st.heap.objs.length ≤ st1.heap.objs.length := Tlg
          omega)
        obtain ⟨l2, hl2⟩ := IH.tfExt
        refine ⟨IH.inv, IH.fringeEq.trans Tfr, ?_, ?_⟩
        · exact ⟨l1 ++ l2, by rw [hl2, hl1, List.append_assoc]⟩
        · intro hok
          have htr := IH.traceFlat hok
          have htr1 : st1.trace = st.trace ++ blockOf true oid := Ttr rfl
          rw [htr, htr1]
          have hltf1 : st1.toFreeze = st.toFreeze ++ l1 := hl1
          have hitot : i <
              (dequeueLoop ⟨some f, fp⟩ fuel (i + 1) st1).2.toFreeze.length := by
            rw [hl2, hltf1, List.length_append, List.length_append]
            omega
          have hgetq :
              (dequeueLoop ⟨some f, fp⟩ fuel (i + 1) st1).2.toFreeze[i]? =
                some oid := by
            rw [hl2, hltf1, List.append_assoc, List.getElem?_append]
            rw [if_pos hlt, List.getElem?_eq_getElem hlt]
            rfl
          have hgeti :
              (dequeueLoop ⟨some f, fp⟩ fuel (i + 1) st1).2.toFreeze[i] = oid := by
            have h2 := List.getElem?_eq_getElem hitot
            rw [h2] at hgetq
            exact Option.some.inj hgetq
          rw [List.drop_eq_getElem_cons hitot, hgeti]
          rw [List.flatMap_cons, List.append_assoc]
      · refine ⟨Tinv, Tfr, ⟨l1, hl1⟩, ?_⟩
        intro hok
        cases hok
    · have hred : dequeueLoop ⟨some f, fp⟩ (fuel + 1) i st = (none, st) := by
        rw [dequeueLoop]
        rw [dif_neg hlt]
      rw [hred]
      refine ⟨hInv, rfl, ⟨[], by simp⟩, ?_⟩
      intro _
      show st.trace = st.trace ++ (st.toFreeze.drop i).flatMap (blockOf true)
      rw [List.drop_eq_nil_of_le (by omega)]
      simp

/-! ### Reads and writes against hardened properties -/

theorem jsGetLoop_data (h : Heap) (fuel cur : Nat) (name : String)
    (v : Value) (w e c : Bool)
    (hlk : (h.getO cur).props.lookup name = some (Desc.data v w e c)) :
    jsGetLoop h (fuel + 1) cur name = some v := by
  rw [jsGetLoop, hlk]

theorem jsGet_data (h : Heap) (x : Nat) (name : String) (v : Value)
    (w e c : Bool)
    (hlk : (h.getO x).props.lookup name = some (Desc.data v w e c)) :
    jsGet h x name = some v := by
  show jsGetLoop h (h.objs.length + 1) x name = some v
  exact jsGetLoop_data h h.objs.length x name v w e c hlk

theorem jsGet_harden_getter (h : Heap) (x gid : Nat) (name : String)
    (g2 : Option Value) (e c : Bool) (v : Value)
    (hlk : (h.getO x).props.lookup name =
      some (Desc.accessor (some (Value.ref gid)) g2 e c))
    (hcl : (h.getO gid).closure = some (Closure.hardenGetter v)) :
    jsGet h x name = some v := by
  show jsGetLoop h (h.objs.length + 1) x name = some v
  rw [jsGetLoop, hlk]
  dsimp only
  rw [hcl]

theorem jsSetLoop_none_proto (h : Heap) (fuel cur receiver p : Nat)
    (name : String) (v : Value)
    (hlk : (h.getO cur).props.lookup name = none)
    (hp : (h.getO cur).proto = some p) :
    jsSetLoop h (fuel + 1) cur receiver name v =
      jsSetLoop h fuel p receiver name v := by
  rw [jsSetLoop, hlk]
  dsimp only
  rw [hp]

theorem jsSetLoop_accessor (h : Heap) (fuel cur receiver sid : Nat)
    (name : String) (v : Value) (g : Option Value) (e c : Bool)
    (hlk : (h.getO cur).props.lookup name =
      some (Desc.accessor g (some (Value.ref sid)) e c)) :
    jsSetLoop h (fuel + 1) cur receiver name v =
      invokeSetter h sid receiver v := by
  rw [jsSetLoop, hlk]

theorem invokeSetter_home (h : Heap) (sid home : Nat) (name : String)
    (v : Value)
    (hcl : (h.getO sid).closure = some (Closure.hardenSetter home name))
    (hsf : (h.getO home).strFail = false) :
    invokeSetter h sid home v = Except.error (JsError.readOnlyViolation
      ("Cannot assign to read only property '" ++ name ++ "' of object '" ++
        jsToStr home ++ "'")) := by
  rw [invokeSetter, hcl]
  dsimp only
  rw [if_pos rfl, hsf]
  rfl

theorem invokeSetter_shadow (h : Heap) (sid home receiver : Nat)
    (name : String) (v : Value)
    (hcl : (h.getO sid).closure = some (Closure.hardenSetter home name))
    (hne : receiver ≠ home)
    (hcd : canDefine h receiver name = true) :
    invokeSetter h sid receiver v =
      Except.ok (h.defineOwn receiver name (Desc.data v true true true)) := by
  rw [invokeSetter, hcl]
  dsimp only
  rw [if_neg hne, if_pos hcd]

/-! ### The claims -/

/-- C4: after the fixpoint, the prototype check fails with an
UnreachablePrototype error exactly when some prototype recorded in the
registry is in neither the fringe nor the work set; the error message
names the offending prototype and its discovery path, and when
stringifying the prototype itself fails the checker still throws, with a
generic message, rather than swallowing the violation. -/
theorem c4_unreachable_prototype_check (h : Heap) (fringe tf : List Nat)
    (protos : List (Nat × String)) (p : Nat) (pa : String) :
    ((∃ e, checkProtosList h fringe tf protos = some e) ↔
      ∃ pp ∈ protos, pp.1 ∉ tf ∧ pp.1 ∉ fringe) ∧
    (∀ e, checkProtosList h fringe tf protos = some e →
      ∃ q qa, (q, qa) ∈ protos ∧ q ∉ tf ∧ q ∉ fringe ∧
        e = JsError.unreachableProto (protoFailMsg h q qa)) ∧
    ((h.getO p).strFail = true → protoFailMsg h p pa =
      "a prototype of something is not already in the fringeset (and .toString failed)") ∧
    ((h.getO p).strFail = false → protoFailMsg h p pa =
      "prototype " ++ jsToStr p ++ " of " ++ pa ++ " is not already in the fringeSet") := by
  have hiff := checkProtosList_none_iff h fringe tf protos
  refine ⟨⟨?_, ?_⟩, ?_, ?_, ?_⟩
  · rintro ⟨e, he⟩
    by_contra hno
    have hall : ∀ pp ∈ protos, pp.1 ∈ tf ∨ pp.1 ∈ fringe := by
      intro pp hpp
      by_contra hq
      push_neg at hq
      exact hno ⟨pp, hpp, hq.1, hq.2⟩
    rw [hiff.mpr hall] at he
    cases he
  · rintro ⟨pp, hpp, h1, h2⟩
    cases hq : checkProtosList h fringe tf protos with
    | some e => exact ⟨e, rfl⟩
    | none =>
      rcases hiff.mp hq pp hpp with h3 | h3
      · exact absurd h3 h1
      · exact absurd h3 h2
  · intro e he
    exact checkProtosList_some_shape h fringe tf protos e he
  · intro hsf
    rw [protoFailMsg, if_pos hsf]
  · intro hsf
    rw [protoFailMsg, if_neg (by simp [hsf])]

/-- C5: construction fails with a ConfigError when the supplied fringe
set lacks both required capabilities (in the source, lacking either one
already fails, so lacking both certainly does); with a capable supplied
set, construction succeeds, the initial fringe is folded into the
supplied set's own membership, and the supplied set is the live one
instead of a private set. -/
theorem c5_config_validation (ifr : List Nat) (fs : SuppliedSet) :
    (fs.hasAdd = false → fs.hasHas = false →
      makeHardener ifr ⟨some fs⟩ = Except.error (JsError.configError
        "options.fringeSet must have add() and has() methods")) ∧
    (fs.hasAdd = true → fs.hasHas = true →
      makeHardener ifr ⟨some fs⟩ =
        Except.ok ⟨ifr.foldl setAdd fs.elems, true⟩ ∧
      ∀ x, x ∈ ifr.foldl setAdd fs.elems ↔ x ∈ fs.elems ∨ x ∈ ifr) := by
  constructor
  · intro h1 h2
    simp [makeHardener, h1, h2]
  · intro h1 h2
    refine ⟨?_, fun x => mem_foldl_setAdd ifr fs.elems x⟩
    simp [makeHardener, h1, h2]

/-- C7: `harden` terminates on every finite reachable graph, cyclic ones
included — the fuel the model provides is proved sufficient, so an
out-of-fuel outcome is unreachable; each node is visited exactly once
(the work set stays duplicate-free, because `enqueue` ignores a value
already in the fringe or work set); and on an exotic-free heap of
null-prototype objects — such as a self-referential node — the call
completes successfully once the `Function.prototype` intrinsic the
created override functions inherit from is in the initial fringe. -/
theorem c7_termination (fp : Nat) (h0 : Heap) (fr0 : List Nat) (root : Value)
    (hWF : heapWF h0) (hroot : valueWF h0 root)
    (hfp : fp < h0.objs.length) :
    (harden (hooklessCfg fp) h0 fr0 root).err ≠ some JsError.outOfFuel ∧
    (harden (hooklessCfg fp) h0 fr0 root).st.toFreeze.Nodup ∧
    (noExotic h0 → protoSub h0 fp → fp ∈ fr0 →
      (harden (hooklessCfg fp) h0 fr0 root).err = none) := by
  have H := harden_spec (hooklessCfg fp) rfl h0 fr0 root hWF hroot hfp
  refine ⟨?_, H.inv.nodup, fun hne hps hmem => (H.protoFpOk hne hps hmem).1⟩
  rcases H.errKind with h1 | ⟨m, h1⟩ | ⟨m, h1⟩ <;> rw [h1] <;> simp

/-- C7 instance: the self-referential node `n.self = n` hardens and
terminates, with `Function.prototype` (index 1) pre-fringed. -/
theorem c7_witness :
    heapWF selfHeap ∧ valueWF selfHeap (Value.ref 0) ∧
    ((harden (hooklessCfg 1) selfHeap [1] (Value.ref 0)).err ≠
        some JsError.outOfFuel ∧
      (harden (hooklessCfg 1) selfHeap [1] (Value.ref 0)).st.toFreeze.Nodup ∧
      (noExotic selfHeap → protoSub selfHeap 1 → 1 ∈ ([1] : List Nat) →
        (harden (hooklessCfg 1) selfHeap [1] (Value.ref 0)).err = none)) :=
  ⟨by decide, by decide, c7_termination 1 selfHeap [1] (Value.ref 0)
    (by decide) (by decide) (by decide)⟩

/-- C9 (amended): a processed node whose prototype link is null records
nothing in the prototype registry — that much is true per node — but a
root whose objects all carry null prototypes does NOT in general harden
from an empty initial fringe: rewriting any configurable data property
creates getter/setter functions inheriting `Function.prototype`, which
lands in the registry without being enqueued.  With the
`Function.prototype` intrinsic in the initial fringe such a root hardens
successfully, and the registry then holds nothing but that intrinsic. -/
theorem c9_null_proto_registry (fp : Nat) (h0 : Heap) (root : Value)
    (hWF : heapWF h0) (hroot : valueWF h0 root) (hfp : fp < h0.objs.length)
    (hne : noExotic h0) (hpn : allProtoNone h0) :
    (∀ st oid pa, (st.heap.getO oid).proto = none →
      recordProto st oid pa = st) ∧
    (harden (hooklessCfg fp) h0 [fp] root).err = none ∧
    (∀ pp ∈ (harden (hooklessCfg fp) h0 [fp] root).st.protos, pp.1 = fp) := by
  have H := harden_spec (hooklessCfg fp) rfl h0 [fp] root hWF hroot hfp
  have hps : protoSub h0 fp := fun o ho => Or.inl (hpn o ho)
  have hmem : fp ∈ ([fp] : List Nat) := List.mem_singleton_self fp
  refine ⟨?_, (H.protoFpOk hne hps hmem).1, (H.protoFpOk hne hps hmem).2⟩
  intro st oid pa hpr
  rw [recordProto, hpr]

/-- C9 instance: the null-prototype self-loop hardens once
`Function.prototype` is pre-fringed, and the registry ends holding only
that intrinsic. -/
theorem c9_witness :
    heapWF selfHeap ∧ noExotic selfHeap ∧ allProtoNone selfHeap ∧
    ((∀ st oid pa, (st.heap.getO oid).proto = none →
        recordProto st oid pa = st) ∧
      (harden (hooklessCfg 1) selfHeap [1] (Value.ref 0)).err = none ∧
      (∀ pp ∈ (harden (hooklessCfg 1) selfHeap [1] (Value.ref 0)).st.protos,
        pp.1 = 1)) :=
  ⟨by decide, by decide, by decide,
    c9_null_proto_registry 1 selfHeap (Value.ref 0) (by decide) (by decide)
      (by decide) (by decide) (by decide)⟩

/-- C9 counterexample to "a root whose entire prototype chain ends in
null prototypes can be hardened successfully with an empty initial
Fringe": on the all-null-prototype self-loop heap the call throws an
UnreachablePrototype error naming `Function.prototype` (the getter
created by the data-property rewrite inherits it, and nothing ever
enqueues or fringes it). -/
theorem c9_counterexample :
    allProtoNone selfHeap ∧ noExotic selfHeap ∧
    (harden (hooklessCfg 1) selfHeap [] (Value.ref 0)).err =
      some (JsError.unreachableProto
        "prototype obj#1 of unknown is not already in the fringeSet") :=
  ⟨by decide, by decide, by decide⟩

/-- C3 (amended): a failing `harden` call — whatever stage threw — merges
nothing into the fringe, which is exactly its pre-call state afterwards.
A subsequent identical call is however not guaranteed to fail with an
identical error: in-place hardening done before the failure changes which
route first discovers a node, so the rerun can fail with the same error
kind but a different diagnostic path in its message. -/
theorem c3_failure_atomicity (cfg : Config) (h0 : Heap) (fr0 : List Nat)
    (root : Value) (hfail : (harden cfg h0 fr0 root).err ≠ none) :
    (harden cfg h0 fr0 root).st.fringe = fr0 := by
  rcases he : enqueue ⟨h0, fr0, [], [], [], []⟩ root none with ⟨e0, stA⟩
  have hF := enqueue_frame ⟨h0, fr0, [], [], [], []⟩ root none
  rw [he] at hF
  have hAfr : stA.fringe = fr0 := hF.2.1
  cases e0 with
  | some e =>
    rw [harden_eq_enqueue_err cfg h0 fr0 root e stA he]
    exact hAfr
  | none =>
    rw [harden_eq_loop cfg h0 fr0 root stA he] at hfail ⊢
    have hq := dequeueLoop_fringe cfg (fuelOf h0) 0 stA
    rcases hl : dequeueLoop cfg (fuelOf h0) 0 stA with ⟨e1, stB⟩
    rw [hl] at hq hfail
    have hBfr : stB.fringe = fr0 := by
      rw [show stB.fringe = stA.fringe from hq, hAfr]
    cases e1 with
    | some e =>
      dsimp only
      exact hBfr
    | none =>
      dsimp only at hfail ⊢
      cases hc : checkProtosList stB.heap stB.fringe stB.toFreeze stB.protos with
      | some e =>
        dsimp only
        exact hBfr
      | none =>
        rw [hc] at hfail
        exact absurd rfl hfail

/-- C3 instance of the amended property: the failing run on `mixHeap`
leaves the fringe exactly at its pre-call (empty) state. -/
theorem c3_witness :
    (harden (hooklessCfg 3) mixHeap [] (Value.ref 0)).err ≠ none ∧
    (harden (hooklessCfg 3) mixHeap [] (Value.ref 0)).st.fringe = [] :=
  ⟨by decide, c3_failure_atomicity (hooklessCfg 3) mixHeap [] (Value.ref 0)
    (by decide)⟩

/-- C3 counterexample to "a subsequent identical call on the same root
fails identically": on `mixHeap` the first call fails naming
`Function.prototype` at the root path `unknown` (the getter inheriting it
was added to the work set directly, so it has no recorded path), while
the identical second call — running on the already-hardened heap, where
the getter is enqueued normally and so has the path `unknown.x(get)` —
fails with the same error kind but a different message.  The two thrown
errors differ. -/
theorem c3_counterexample :
    (harden (hooklessCfg 3) mixHeap [] (Value.ref 0)).err =
      some (JsError.unreachableProto
        "prototype obj#3 of unknown is not already in the fringeSet") ∧
    (harden (hooklessCfg 3)
        (harden (hooklessCfg 3) mixHeap [] (Value.ref 0)).st.heap
        (harden (hooklessCfg 3) mixHeap [] (Value.ref 0)).st.fringe
        (Value.ref 0)).err =
      some (JsError.unreachableProto
        "prototype obj#3 of unknown.x(get) is not already in the fringeSet") ∧
    (harden (hooklessCfg 3) mixHeap [] (Value.ref 0)).st.fringe = [] ∧
    (harden (hooklessCfg 3) mixHeap [] (Value.ref 0)).err ≠
      (harden (hooklessCfg 3)
        (harden (hooklessCfg 3) mixHeap [] (Value.ref 0)).st.heap
        (harden (hooklessCfg 3) mixHeap [] (Value.ref 0)).st.fringe
        (Value.ref 0)).err :=
  ⟨by decide, by decide, by decide, by decide⟩

/-- C6: after a successful `harden(x)`, an identical second call is a
complete no-op: it succeeds, returns `x`, visits no node (the work set
stays empty, no event is traced, no path or prototype is recorded) and
performs no mutation of heap or fringe. -/
theorem c6_idempotent (fp : Nat) (h0 : Heap) (fr0 : List Nat) (root : Value)
    (hWF : heapWF h0) (hroot : valueWF h0 root) (hfp : fp < h0.objs.length)
    (hsucc : (harden (hooklessCfg fp) h0 fr0 root).err = none) :
    harden (hooklessCfg fp) (harden (hooklessCfg fp) h0 fr0 root).st.heap
        (harden (hooklessCfg fp) h0 fr0 root).st.fringe root =
      ⟨none, ⟨(harden (hooklessCfg fp) h0 fr0 root).st.heap,
              (harden (hooklessCfg fp) h0 fr0 root).st.fringe,
              [], [], [], []⟩, root⟩ := by
  have H := harden_spec (hooklessCfg fp) rfl h0 fr0 root hWF hroot hfp
  apply harden_noop
  intro r hrr
  constructor
  · exact (H.okFringe hsucc r).mpr (H.okRoot hsucc r hrr)
  · intro hk
    exact H.okRootKind hsucc r hrr (H.exoticMono r hk)

/-- C6 instance: the second `harden` of the self-loop is a no-op. -/
theorem c6_witness :
    heapWF selfHeap ∧
    (harden (hooklessCfg 1) selfHeap [1] (Value.ref 0)).err = none ∧
    harden (hooklessCfg 1)
        (harden (hooklessCfg 1) selfHeap [1] (Value.ref 0)).st.heap
        (harden (hooklessCfg 1) selfHeap [1] (Value.ref 0)).st.fringe
        (Value.ref 0) =
      ⟨none, ⟨(harden (hooklessCfg 1) selfHeap [1] (Value.ref 0)).st.heap,
              (harden (hooklessCfg 1) selfHeap [1] (Value.ref 0)).st.fringe,
              [], [], [], []⟩, Value.ref 0⟩ :=
  ⟨by decide, by decide, c6_idempotent 1 selfHeap [1] (Value.ref 0)
    (by decide) (by decide) (by decide) (by decide)⟩

/-- C1: when `harden(root)` returns successfully it returns the original
root reference itself, and every node reachable from the root through own
property values, own accessor functions, or prototype links — traversal
stopping at the pre-call fringe — is in the updated fringe, each such node
being either pre-existing in the fringe at call start or structurally
hardened (rewritten and frozen) by the call. -/
theorem c1_closure_totality (fp : Nat) (h0 : Heap) (fr0 : List Nat) (r : Nat)
    (hWF : heapWF h0) (hroot : valueWF h0 (Value.ref r))
    (hfp : fp < h0.objs.length)
    (hsucc : (harden (hooklessCfg fp) h0 fr0 (Value.ref r)).err = none) :
    (harden (hooklessCfg fp) h0 fr0 (Value.ref r)).ret = Value.ref r ∧
    ∀ t, reachesAvoiding
        (harden (hooklessCfg fp) h0 fr0 (Value.ref r)).st.heap fr0 r t →
      t ∈ (harden (hooklessCfg fp) h0 fr0 (Value.ref r)).st.fringe ∧
      (t ∈ fr0 ∨
        isHardenedB (harden (hooklessCfg fp) h0 fr0 (Value.ref r)).st.heap t
          = true) := by
  have H := harden_spec (hooklessCfg fp) rfl h0 fr0 (Value.ref r) hWF hroot hfp
  set out := harden (hooklessCfg fp) h0 fr0 (Value.ref r) with hout
  have hcover : ∀ t, reachesAvoiding out.st.heap fr0 r t →
      t ∈ fr0 ∨ t ∈ out.st.toFreeze := by
    intro t hreach
    induction hreach with
    | refl => exact H.okRoot hsucc r rfl
    | @step b c hb hstop hedge ih =>
      rcases ih with h1 | h1
      · exact absurd h1 hstop
      · have hp := H.okProc hsucc b h1
        have hedge2 : c ∈ protoTargets (out.st.heap.getO b) ++
            propTargets (out.st.heap.getO b) := hedge
        rcases List.mem_append.mp hedge2 with he | he
        · cases hpr : (out.st.heap.getO b).proto with
          | none =>
            rw [protoTargets, hpr] at he
            cases he
          | some p =>
            rw [protoTargets, hpr] at he
            have hcp : c = p := by simpa using he
            subst hcp
            obtain ⟨pa, hpa⟩ := lookup_isSome_mem (hp.2.2 c hpr)
            rcases H.okProtos hsucc (c, pa) hpa with h2 | h2
            · exact Or.inr h2
            · exact Or.inl h2
        · rcases hp.2.1 c he with h2 | h2
          · exact (H.okFringe hsucc c).mp h2
          · exact Or.inr h2
  refine ⟨H.okRet hsucc, ?_⟩
  intro t hreach
  rcases hcover t hreach with h1 | h1
  · exact ⟨(H.okFringe hsucc t).mpr (Or.inl h1), Or.inl h1⟩
  · exact ⟨(H.okFringe hsucc t).mpr (Or.inr h1),
      Or.inr (H.okProc hsucc t h1).1⟩

/-- C1 instance: the self-loop hardens; everything reachable from it is
in the final fringe and hardened. -/
theorem c1_witness :
    heapWF selfHeap ∧
    ((harden (hooklessCfg 1) selfHeap [1] (Value.ref 0)).ret = Value.ref 0 ∧
      ∀ t, reachesAvoiding
          (harden (hooklessCfg 1) selfHeap [1] (Value.ref 0)).st.heap [1] 0 t →
        t ∈ (harden (hooklessCfg 1) selfHeap [1] (Value.ref 0)).st.fringe ∧
        (t ∈ ([1] : List Nat) ∨
          isHardenedB
            (harden (hooklessCfg 1) selfHeap [1] (Value.ref 0)).st.heap t
            = true)) :=
  ⟨by decide, c1_closure_totality 1 selfHeap [1] 0 (by decide) (by decide)
    (by decide) (by decide)⟩

/-- C10: rewriting a configurable data property gives the property a
fresh accessor pair whose getter carries the captured original value as
its own `value` data property; the getter is frozen and is itself in the
work set, its `value` property is what carries the original value's
outbound reference for traversal, and reading `value` off the getter
publicly returns the captured value. -/
theorem c10_getter_value_prop (fp : Nat) (h : Heap) (tf : List Nat) (oid : Nat)
    (name : String) (v : Value) (w enum : Bool)
    (hWF : heapWF h) (hOid : oid < h.objs.length)
    (hb : ∀ x ∈ tf, x < h.objs.length) (hfp : fp < h.objs.length)
    (hlook : (h.getO oid).props.lookup name =
      some (Desc.data v w enum true)) :
    ∃ gid sid,
      ((freezeWithOverride fp h tf oid).1.getO oid).props.lookup name =
        some (Desc.accessor (some (Value.ref gid)) (some (Value.ref sid))
          enum false) ∧
      ((freezeWithOverride fp h tf oid).1.getO gid).props.lookup "value" =
        some (Desc.data v false true false) ∧
      isHardenedB (freezeWithOverride fp h tf oid).1 gid = true ∧
      gid ∈ (freezeWithOverride fp h tf oid).2 ∧
      (∀ t, t ∈ valueTargets v →
        t ∈ propTargets ((freezeWithOverride fp h tf oid).1.getO gid)) ∧
      jsGet (freezeWithOverride fp h tf oid).1 gid "value" = some v := by
  have F := freezeWithOverride_spec fp h tf oid hOid hb hfp hWF
  obtain ⟨gid, sid, hbg, hbs, hacc, hgo, hso, hgmem, hsmem⟩ :=
    F.rewritten name v w enum hlook
  have hlkv : ((freezeWithOverride fp h tf oid).1.getO gid).props.lookup "value" =
      some (Desc.data v false true false) := by
    rw [hgo]
    rfl
  refine ⟨gid, sid, hacc, hlkv, isHardenedB_getterObj hgo, hgmem, ?_, ?_⟩
  · intro t ht
    rw [hgo]
    show t ∈ propTargets (getterObj fp v)
    simpa [propTargets, getterObj, descTargets] using ht
  · exact jsGet_data _ gid "value" v false true false hlkv

/-- C10 instance: hardening the parent of `pairHeap` leaves a getter
whose `value` property holds the captured primitive. -/
theorem c10_witness :
    heapWF pairHeap ∧
    (pairHeap.getO 0).props.lookup "p" =
      some (Desc.data (Value.prim 7) true true true) ∧
    ∃ gid sid,
      ((freezeWithOverride 2 pairHeap [] 0).1.getO 0).props.lookup "p" =
        some (Desc.accessor (some (Value.ref gid)) (some (Value.ref sid))
          true false) ∧
      ((freezeWithOverride 2 pairHeap [] 0).1.getO gid).props.lookup "value" =
        some (Desc.data (Value.prim 7) false true false) ∧
      isHardenedB (freezeWithOverride 2 pairHeap [] 0).1 gid = true ∧
      gid ∈ (freezeWithOverride 2 pairHeap [] 0).2 ∧
      (∀ t, t ∈ valueTargets (Value.prim 7) →
        t ∈ propTargets ((freezeWithOverride 2 pairHeap [] 0).1.getO gid)) ∧
      jsGet (freezeWithOverride 2 pairHeap [] 0).1 gid "value" =
        some (Value.prim 7) :=
  ⟨by decide, by decide, c10_getter_value_prop 2 pairHeap [] 0 "p"
    (Value.prim 7) true true (by decide) (by decide) (by simp)
    (by decide) (by decide)⟩

/-- C2: after a node's configurable data property is rewritten by the
hardener, a direct assignment whose receiver is the node itself fails
with a ReadOnlyViolation error, while an assignment reaching the property
through the prototype chain from a distinct extensible receiver succeeds:
it installs a fresh own writable/enumerable/configurable data property
with the new value on that receiver, leaves the node's own property
untouched, and a read on the node still returns the captured value. -/
theorem c2_override_write (fp : Nat) (h : Heap) (oid c : Nat) (name : String)
    (v w : Value) (wr enum : Bool)
    (hWF : heapWF h) (hOid : oid < h.objs.length) (hc : c < h.objs.length)
    (hfp : fp < h.objs.length) (hne : c ≠ oid)
    (hlook : (h.getO oid).props.lookup name =
      some (Desc.data v wr enum true))
    (hsf : (h.getO oid).strFail = false)
    (hcl : (h.getO c).props.lookup name = none)
    (hcp : (h.getO c).proto = some oid)
    (hcx : (h.getO c).extensible = true) :
    (∃ msg, jsSet (freezeWithOverride fp h [] oid).1 oid name w =
      Except.error (JsError.readOnlyViolation msg)) ∧
    (∃ h2, jsSet (freezeWithOverride fp h [] oid).1 c name w = Except.ok h2 ∧
      (h2.getO c).props.lookup name = some (Desc.data w true true true) ∧
      h2.getO oid = (freezeWithOverride fp h [] oid).1.getO oid ∧
      jsGet h2 oid name = some v ∧
      jsGet h2 c name = some w) := by
  have F := freezeWithOverride_spec fp h [] oid hOid (by simp) hfp hWF
  obtain ⟨gid, sid, hbg, hbs, hacc, hgo, hso, hgmem, hsmem⟩ :=
    F.rewritten name v wr enum hlook
  set R := freezeWithOverride fp h [] oid with hR
  have hstc : R.1.getO c = h.getO c := F.stable c hne hc
  have hlenR : R.1.objs.length = h.objs.length + 2 * cdcObj (h.getO oid) :=
    F.lenEq
  have hgne : gid ≠ c := by omega
  have hsclo : (R.1.getO sid).closure =
      some (Closure.hardenSetter oid name) := by
    rw [hso]
    rfl
  constructor
  · have hkey : jsSet R.1 oid name w = Except.error (JsError.readOnlyViolation
        ("Cannot assign to read only property '" ++ name ++ "' of object '" ++
          jsToStr oid ++ "'")) := by
      show jsSetLoop R.1 (R.1.objs.length + 1) oid oid name w = _
      rw [jsSetLoop_accessor R.1 R.1.objs.length oid oid sid name w _ _ _ hacc]
      exact invokeSetter_home R.1 sid oid name w hsclo
        (by rw [F.strFailEq]; exact hsf)
    exact ⟨_, hkey⟩
  · have hclR : (R.1.getO c).props.lookup name = none := by
      rw [hstc]
      exact hcl
    have hcpR : (R.1.getO c).proto = some oid := by
      rw [hstc]
      exact hcp
    obtain ⟨m, hm⟩ : ∃ m, R.1.objs.length = m + 1 :=
      ⟨R.1.objs.length - 1, by omega⟩
    have hstep1 : jsSet R.1 c name w =
        jsSetLoop R.1 R.1.objs.length oid c name w := by
      show jsSetLoop R.1 (R.1.objs.length + 1) c c name w = _
      exact jsSetLoop_none_proto R.1 R.1.objs.length c c oid name w hclR hcpR
    have hstep2 : jsSetLoop R.1 R.1.objs.length oid c name w =
        invokeSetter R.1 sid c w := by
      rw [hm]
      exact jsSetLoop_accessor R.1 m oid c sid name w _ _ _ hacc
    have hcd : canDefine R.1 c name = true := by
      rw [canDefine, hclR]
      rw [hstc]
      exact hcx
    have hshadow := invokeSetter_shadow R.1 sid oid c name w hsclo hne hcd
    have hoc : oid ≠ c := fun hq => hne hq.symm
    have hup : (R.1.defineOwn c name (Desc.data w true true true)).getO c =
        withProp name (Desc.data w true true true) (R.1.getO c) :=
      Heap.getO_update_self R.1 c _ (by omega)
    have hupo : (R.1.defineOwn c name (Desc.data w true true true)).getO oid =
        R.1.getO oid :=
      Heap.getO_update_ne R.1 c _ oid hoc
    have hupg : (R.1.defineOwn c name (Desc.data w true true true)).getO gid =
        R.1.getO gid :=
      Heap.getO_update_ne R.1 c _ gid hgne
    refine ⟨R.1.defineOwn c name (Desc.data w true true true), ?_, ?_, hupo,
      ?_, ?_⟩
    · rw [hstep1, hstep2, hshadow]
    · rw [hup]
      show (setProp (R.1.getO c).props name
        (Desc.data w true true true)).lookup name = _
      exact lookup_setProp_self _ _ _
    · refine jsGet_harden_getter _ oid gid name (some (Value.ref sid)) enum
        false v ?_ ?_
      · rw [hupo]
        exact hacc
      · rw [hupg, hgo]
        rfl
    · refine jsGet_data _ c name w true true true ?_
      rw [hup]
      show (setProp (R.1.getO c).props name
        (Desc.data w true true true)).lookup name = _
      exact lookup_setProp_self _ _ _

/-- C2 instance: on `pairHeap`, writing through the hardened parent
rejects a direct write and shadows on the child. -/
theorem c2_witness :
    heapWF pairHeap ∧
    ((∃ msg, jsSet (freezeWithOverride 2 pairHeap [] 0).1 0 "p"
        (Value.prim 9) = Except.error (JsError.readOnlyViolation msg)) ∧
      (∃ h2, jsSet (freezeWithOverride 2 pairHeap [] 0).1 1 "p"
          (Value.prim 9) = Except.ok h2 ∧
        (h2.getO 1).props.lookup "p" =
          some (Desc.data (Value.prim 9) true true true) ∧
        h2.getO 0 = (freezeWithOverride 2 pairHeap [] 0).1.getO 0 ∧
        jsGet h2 0 "p" = some (Value.prim 7) ∧
        jsGet h2 1 "p" = some (Value.prim 9))) :=
  ⟨by decide, c2_override_write 2 pairHeap 0 1 "p" (Value.prim 7)
    (Value.prim 9) true true (by decide) (by decide) (by decide) (by decide)
    (by decide) (by decide) (by decide) (by decide) (by decide) (by decide)⟩

/-- C8: with a prepare hook configured (and keeping the heap
well-formed), a successful `harden` leaves an event trace of exactly one
block per processed node, in visit order: the hook event first, then the
node-hardened event, then the links-read event — whose flag records that
the node was already structurally frozen when its prototype and
descriptors were read for traversal. -/
theorem c8_hook_harden_read_order (cfg : Config) (f : Heap → Nat → Heap)
    (hcfg : cfg.prepareHook = some f) (hHook : hookWF cfg)
    (h0 : Heap) (fr0 : List Nat) (root : Value)
    (hWF : heapWF h0) (hroot : valueWF h0 root)
    (hfp : cfg.funcProto < h0.objs.length)
    (hsucc : (harden cfg h0 fr0 root).err = none) :
    (harden cfg h0 fr0 root).st.trace =
      (harden cfg h0 fr0 root).st.toFreeze.flatMap (blockOf true) := by
  have hH : ∀ h oid, heapWF h →
      heapWF (f h oid) ∧ h.objs.length ≤ (f h oid).objs.length :=
    fun h oid hw => hHook f hcfg h oid hw
  obtain ⟨hook, fp⟩ := cfg
  simp only at hcfg hfp hsucc ⊢
  subst hcfg
  have hInv0 : StInv (⟨h0, fr0, [], [], [], []⟩ : HState) :=
    ⟨hWF, List.nodup_nil, by simp⟩
  rcases he : enqueue ⟨h0, fr0, [], [], [], []⟩ root none with ⟨e0, stA⟩
  have hF := enqueue_frame ⟨h0, fr0, [], [], [], []⟩ root none
  rw [he] at hF
  have hAheap : stA.heap = h0 := hF.1
  have hAtr : stA.trace = [] := hF.2.2.2
  have hInvA : StInv stA := by
    have hq := enqueue_stInv ⟨h0, fr0, [], [], [], []⟩ root none hInv0 hroot
    rw [he] at hq
    exact hq
  cases e0 with
  | some e =>
    rw [harden_eq_enqueue_err ⟨some f, fp⟩ h0 fr0 root e stA he] at hsucc
    simp at hsucc
  | none =>
    rw [harden_eq_loop ⟨some f, fp⟩ h0 fr0 root stA he] at hsucc ⊢
    have L := dequeueLoopH_spec f fp hH (fuelOf h0) 0 stA hInvA
      (by rw [hAheap]; exact hfp)
    rcases hl : dequeueLoop ⟨some f, fp⟩ (fuelOf h0) 0 stA with ⟨e1, stB⟩
    rw [hl] at L hsucc
    cases e1 with
    | some e =>
      dsimp only at hsucc
      simp at hsucc
    | none =>
      dsimp only at hsucc ⊢
      have htr : stB.trace =
          stA.trace ++ (stB.toFreeze.drop 0).flatMap (blockOf true) :=
        L.traceFlat rfl
      cases hc : checkProtosList stB.heap stB.fringe stB.toFreeze
          stB.protos with
      | some e =>
        rw [hc] at hsucc
        simp at hsucc
      | none =>
        dsimp only
        show stB.trace = stB.toFreeze.flatMap (blockOf true)
        rw [htr, hAtr, List.drop_zero]
        simp

/-- C8 instance: the identity hook on the self-loop; the trace is the
hook-first block for each of the three processed nodes. -/
theorem c8_witness :
    idHookCfg.prepareHook = some (fun h _ => h) ∧
    hookWF idHookCfg ∧
    heapWF selfHeap ∧
    (harden idHookCfg selfHeap [1] (Value.ref 0)).err = none ∧
    (harden idHookCfg selfHeap [1] (Value.ref 0)).st.trace =
      (harden idHookCfg selfHeap [1] (Value.ref 0)).st.toFreeze.flatMap
        (blockOf true) := by
  have hHook : hookWF idHookCfg := by
    intro g hg h oid hw
    injection hg with hg2
    subst hg2
    exact ⟨hw, Nat.le_refl _⟩
  exact ⟨rfl, hHook, by decide, by decide,
    c8_hook_harden_read_order idHookCfg (fun h _ => h) rfl hHook selfHeap [1]
      (Value.ref 0) (by decide) (by decide) (by decide) (by decide)⟩

end MH
